import Mathlib

/-!
# `vcf_af_extractor.c`: a shallow embedding

The program reads a BGZF-compressed VCF file line by line, copies header lines
(first byte `#`) and rewrites every data line to
`CHROM \t POS \t . \t REF \t ALT \t . \t FILTER \t AF=<value> \n`.

Bytes are modelled as `Char`, C strings and byte buffers as `List Char`.
The htslib primitives (`bgzf_open`, `bgzf_getline`, `bgzf_write`) and `strdup`
are the environment: their outcomes are given by an `Env` and by the list of
the results of `bgzf_getline`. A buffer may hold a NUL byte; the string
functions see the bytes before the first one (`cstr`). The allocations inside
`kputs`, `kputsn` and `ksprintf`, whose results the program does not check, are
taken to succeed, and lengths stay below `INT_MAX`.
-/

namespace VCFUtils

/-! ## C string primitives -/

/-- The C string stored in a buffer: the bytes before the first NUL byte. -/
def cstr (s : List Char) : List Char :=
  s.takeWhile (fun c => c != '\x00')

/-- `strdup(s)`: a copy of the C string `s`, or `none` (NULL) when the
allocation fails. -/
def strdup (allocOk : Bool) (s : List Char) : Option (List Char) :=
  if allocOk then some (cstr s) else none

/-- `strsep(&p, delim)` for a non-NULL `*p` and a one-byte delimiter set: the
token that is returned, and the new value of `*p` (the text after the first
delimiter, or `none` = NULL when the string has no delimiter). -/
def strsep (delim : Char) : List Char → List Char × Option (List Char)
  | [] => ([], none)
  | c :: cs =>
    if c = delim then ([], some cs)
    else (c :: (strsep delim cs).1, (strsep delim cs).2)

/-- `strstr(hay, needle)`: the suffix of `hay` that starts at the first
occurrence of `needle`, or `none` (NULL). -/
def strstr : List Char → List Char → Option (List Char)
  | [], needle => if needle.isEmpty then some [] else none
  | c :: cs, needle =>
    if needle.isPrefixOf (c :: cs) then some (c :: cs) else strstr cs needle

/-- `strchr(s, ch)`: the suffix of `s` that starts at the first `ch`, or
`none` (NULL). -/
def strchr : List Char → Char → Option (List Char)
  | [], _ => none
  | c :: cs, ch => if c = ch then some (c :: cs) else strchr cs ch

/-! ## The body of the loop on a data line (lines 73-121) -/

/-- The split loop of lines 78-80,
`while (col_idx < 8 && (fields[col_idx] = strsep(&p, "\t")) != NULL) col_idx++`:
`n` is `8 - col_idx`, `p` the current pointer (`none` = NULL); the result is
the list of the fields stored, so `col_idx` is its length. -/
def splitFields : Nat → Option (List Char) → List (List Char)
  | 0, _ => []
  | _ + 1, none => []
  | n + 1, some s => (strsep '\t' s).1 :: splitFields n (strsep '\t' s).2

/-- The bytes `"AF="`. -/
def afTag : List Char := ['A', 'F', '=']

/-- Lines 89-114 without the `"AF="` that `kputs` writes first: the value
appended to `new_info`, or `none` when `strstr` finds no `"AF="`. -/
def afValue (info_field : List Char) : Option (List Char) :=
  match strstr info_field afTag with
  | none => none
  | some af_tag_ptr =>
    let af_val_ptr := af_tag_ptr.drop 3
    match strchr af_val_ptr ';' with
    | some af_val_end_ptr =>
      some (af_val_ptr.take (af_val_ptr.length - af_val_end_ptr.length))
    | none => some af_val_ptr

/-- The string `new_info` of lines 105-114. -/
def newInfo (info_field : List Char) : Option (List Char) :=
  (afValue info_field).map (fun v => afTag ++ v)

/-- The `ksprintf` of lines 120-121 with format
`"%s\t%s\t.\t%s\t%s\t.\t%s\t%s\n"`. -/
def outputLine (f0 f1 f3 f4 f6 new_info : List Char) : List Char :=
  f0 ++ ['\t'] ++ f1 ++ ['\t', '.', '\t'] ++ f3 ++ ['\t'] ++ f4
    ++ ['\t', '.', '\t'] ++ f6 ++ ['\t'] ++ new_info ++ ['\n']

/-- What the body does with a data line. -/
inductive LineResult where
  /-- Fewer than 8 columns (`col_idx < 8`): skipped. -/
  | malformed
  /-- No `"AF="` in the INFO column: skipped. -/
  | noAF
  /-- The bytes of `output_line`, handed to `bgzf_write`. -/
  | record (bytes : List Char)
  deriving DecidableEq, Repr

/-- Lines 73-121 on `line_copy`. -/
def dataLine (line_copy : List Char) : LineResult :=
  let fields := splitFields 8 (some line_copy)
  if fields.length < 8 then .malformed
  else
    match newInfo (fields.getD 7 []) with
    | none => .noAF
    | some new_info =>
      .record (outputLine (fields.getD 0 []) (fields.getD 1 []) (fields.getD 3 [])
        (fields.getD 4 []) (fields.getD 6 []) new_info)

/-! ## The environment and the observable effects -/

/-- One result of `bgzf_getline(in_fp, '\n', &line)`. -/
inductive ReadResult where
  /-- A line was read; `line.s` holds its bytes without the newline. -/
  | line (s : List Char)
  /-- End of file. -/
  | eof
  /-- A read or decompression error, with return value `-(n + 2)`. -/
  | error (n : Nat)
  deriving DecidableEq, Repr

/-- The return value of `bgzf_getline`: the length of the line, `-1` at end of
file, `-2` or less on error. -/
def ReadResult.status : ReadResult → Int
  | .line s => (s.length : Int)
  | .eof => -1
  | .error n => -((n : Int) + 2)

/-- The outcomes of the calls the program makes into its environment. -/
structure Env where
  /-- The arguments `argv[0..argc-1]`. -/
  argv : List (List Char)
  /-- Whether `bgzf_open(input_vcf_path, "r")` succeeds. -/
  inOpens : Bool
  /-- Whether `bgzf_open(output_vcf_path, "w")` succeeds. -/
  outOpens : Bool
  /-- Whether the `k`-th call of `bgzf_write` (from 0) succeeds. -/
  writeOk : Nat → Bool
  /-- Whether the `k`-th call of `strdup` (from 0) succeeds. -/
  dupOk : Nat → Bool

/-- The diagnostics printed to `stderr`. -/
inductive Diag where
  | usage (argv0 : List Char)
  | openInput (path : List Char)
  | openOutput (path : List Char)
  | writeHeader
  | allocLine
  | writeData
  deriving DecidableEq, Repr

/-- The text of a diagnostic. -/
def Diag.text : Diag → String
  | .usage argv0 => "Usage: " ++ String.mk argv0 ++ " <input.vcf.bgz> <output.vcf.bgz>\n"
  | .openInput path => "Error: Could not open input file " ++ String.mk path ++ "\n"
  | .openOutput path => "Error: Could not open output file " ++ String.mk path ++ "\n"
  | .writeHeader => "Error: Failed to write header to output file.\n"
  | .allocLine => "Error: Failed to allocate memory for line copy.\n"
  | .writeData => "Error: Failed to write data to output file.\n"

/-- The observable effects of a run so far. -/
structure World where
  /-- The bytes accepted by `out_fp`. -/
  out : List Char
  /-- The diagnostics printed to `stderr`, oldest first. -/
  err : List Diag
  /-- What was printed to `stdout`. -/
  stdout : List String
  /-- The number of calls of `bgzf_getline`. -/
  nread : Nat
  /-- The number of calls of `bgzf_write`. -/
  nwrite : Nat
  /-- The number of calls of `strdup`. -/
  ndup : Nat
  /-- Whether `in_fp` was opened, and whether it was closed. -/
  inOpened : Bool
  inClosed : Bool
  /-- Whether `out_fp` was opened, and whether it was closed. -/
  outOpened : Bool
  outClosed : Bool
  deriving DecidableEq, Repr

/-- The state at the start of `main`. -/
def World.init : World :=
  { out := [], err := [], stdout := [], nread := 0, nwrite := 0, ndup := 0,
    inOpened := false, inClosed := false, outOpened := false, outClosed := false }

/-- The state when the loop is entered: both files are open. -/
def World.start : World :=
  { World.init with inOpened := true, outOpened := true }

/-- `bgzf_write(out_fp, data, len)`: whether it succeeded (result `>= 0`), and
the state after it. A failed write adds no byte. -/
def bgzf_write (env : Env) (w : World) (data : List Char) : Bool × World :=
  if env.writeOk w.nwrite then
    (true, { w with out := w.out ++ data, nwrite := w.nwrite + 1 })
  else
    (false, { w with nwrite := w.nwrite + 1 })

/-- How one evaluation of the loop ends. -/
inductive Ctl where
  /-- The body ran to its end or to a `continue`: the condition is evaluated again. -/
  | next (w : World)
  /-- The condition was false, or the body ran to a `break`. -/
  | stop (w : World)
  deriving DecidableEq, Repr

/-- The state at the end of one evaluation of the loop. -/
def Ctl.world : Ctl → World
  | .next w => w
  | .stop w => w

/-- The body of the loop (lines 57-134) on the line just read. -/
def body (env : Env) (w : World) (line : List Char) : Ctl :=
  if line.head? = some '#' then
    let r1 := bgzf_write env w line
    if !r1.1 then .stop { r1.2 with err := r1.2.err ++ [Diag.writeHeader] }
    else
      let r2 := bgzf_write env r1.2 ['\n']
      if !r2.1 then .stop { r2.2 with err := r2.2.err ++ [Diag.writeHeader] }
      else .next r2.2
  else
    let w1 := { w with ndup := w.ndup + 1 }
    match strdup (env.dupOk w.ndup) line with
    | none => .stop { w1 with err := w1.err ++ [Diag.allocLine] }
    | some line_copy =>
      match dataLine line_copy with
      | .malformed => .next w1
      | .noAF => .next w1
      | .record bytes =>
        let r := bgzf_write env w1 bytes
        if !r.1 then .stop { r.2 with err := r.2.err ++ [Diag.writeData] }
        else .next r.2

/-- One evaluation of the loop of line 56: the call of `bgzf_getline` with
result `r`, the test `> 0`, and the body. -/
def step (env : Env) (w : World) (r : ReadResult) : Ctl :=
  let w1 := { w with nread := w.nread + 1 }
  if 0 < r.status then
    match r with
    | .line s => body env w1 s
    | _ => .stop w1
  else .stop w1

/-- The loop on the read results `rs`, as long as it goes on. -/
def feed (env : Env) : List ReadResult → World → Ctl
  | [], w => .next w
  | r :: rs, w =>
    match step env w r with
    | .next w1 => feed env rs w1
    | .stop w1 => .stop w1

/-- The whole loop of lines 56-135: after the last read result the next call
of `bgzf_getline` returns end of file. -/
def loop (env : Env) (rs : List ReadResult) (w : World) : World :=
  match feed env rs w with
  | .next w1 => { w1 with nread := w1.nread + 1 }
  | .stop w1 => w1

/-- The summary of line 138. -/
def summary (input_vcf_path output_vcf_path : List Char) : String :=
  "Processed " ++ String.mk input_vcf_path ++ " -> " ++ String.mk output_vcf_path ++ "\n"

/-- The function `main`, where `rs` are the results of the successive calls of
`bgzf_getline` (end of file after the last one): the exit status and the
effects. -/
def main (env : Env) (rs : List ReadResult) : Nat × World :=
  if env.argv.length ≠ 3 then
    (1, { World.init with err := [Diag.usage (env.argv.getD 0 [])] })
  else
    let input_vcf_path := env.argv.getD 1 []
    let output_vcf_path := env.argv.getD 2 []
    if !env.inOpens then
      (1, { World.init with err := [Diag.openInput input_vcf_path] })
    else if !env.outOpens then
      (1, { World.init with
              inOpened := true, err := [Diag.openOutput output_vcf_path], inClosed := true })
    else
      let w := loop env rs World.start
      (0, { w with
              stdout := w.stdout ++ [summary input_vcf_path output_vcf_path],
              inClosed := true, outClosed := true })

/-! ## Runs without failures -/

/-- Both files open and the program has its two arguments. -/
def Env.Opens (env : Env) : Prop :=
  env.argv.length = 3 ∧ env.inOpens = true ∧ env.outOpens = true

/-- No call of `bgzf_write` and no call of `strdup` fails. -/
def Env.NoFailure (env : Env) : Prop :=
  (∀ k, env.writeOk k = true) ∧ (∀ k, env.dupOk k = true)

/-- An environment in which both files open and nothing fails. -/
def okEnv : Env :=
  { argv := ["vcf_af_extractor".toList, "in.vcf.bgz".toList, "out.vcf.bgz".toList],
    inOpens := true, outOpens := true,
    writeOk := fun _ => true, dupOk := fun _ => true }

/-- The environment `okEnv` except that call `j` of `bgzf_write` fails. -/
def failEnv (j : Nat) : Env :=
  { okEnv with writeOk := fun k => k != j }

/-- The bytes the body of the loop writes for `line` when nothing fails: the
header line and a newline, the record of a data line, or nothing. -/
def lineOut (line : List Char) : List Char :=
  if line.head? = some '#' then line ++ ['\n']
  else
    match dataLine (cstr line) with
    | .record bytes => bytes
    | _ => []

/-- The output file of the run of `main` on the lines `ls`. -/
def runOut (env : Env) (ls : List (List Char)) : List Char :=
  (main env (ls.map ReadResult.line)).2.out

/-- The record `f0 \t f1 \t . \t f3 \t f4 \t . \t f6 \t AF=v \n`. -/
def expectedRecord (f0 f1 f3 f4 f6 v : List Char) : List Char :=
  f0 ++ "\t".toList ++ f1 ++ "\t.\t".toList ++ f3 ++ "\t".toList ++ f4 ++ "\t.\t".toList
    ++ f6 ++ "\tAF=".toList ++ v ++ "\n".toList

/-- The fields `fs`, each followed by a tab, and then `tail`. -/
def joinTabs (fs : List (List Char)) (tail : List Char) : List Char :=
  fs.foldr (fun f acc => f ++ '\t' :: acc) tail

/-- The failure a diagnostic printed inside the loop stands for. -/
def Diag.loopCause (env : Env) (d : Diag) : Prop :=
  (d = Diag.allocLine ∧ ∃ k, env.dupOk k = false) ∨
  ((d = Diag.writeHeader ∨ d = Diag.writeData) ∧ ∃ k, env.writeOk k = false)

/-- Modelled from the spec: the framing of a text into lines by the line
reader of section 4.1 (`bgzf_getline` of htslib, which is not part of this
repository): the pieces that end at a newline, and the text after the last
newline when it is not empty. -/
def linesOf : List Char → List (List Char)
  | [] => []
  | c :: cs =>
    if c = '\n' then [] :: linesOf cs
    else
      match linesOf cs with
      | [] => [[c]]
      | l :: ls => (c :: l) :: ls

/-- The line of the output file that the body of the loop writes for `line`
when nothing fails, without its newline; `none` when it writes nothing. -/
def outLine (line : List Char) : Option (List Char) :=
  if line.head? = some '#' then some line
  else
    match dataLine (cstr line) with
    | .record bytes => some bytes.dropLast
    | _ => none

/-- What lines 73-121 give for a line with the 8 columns `f0 .. f6` and `f7`
as `strdup` leaves it. -/
def resultOf (f0 f1 f3 f4 f6 f7 : List Char) : LineResult :=
  match afValue (cstr f7) with
  | some v => .record (expectedRecord f0 f1 f3 f4 f6 v)
  | none => .noAF

/-! ## The C string primitives -/

theorem cstr_eq_self {s : List Char} (h : '\x00' ∉ s) : cstr s = s := by
  unfold cstr
  induction s with
  | nil => rfl
  | cons c cs ih =>
    have hc : c ≠ '\x00' := fun e => h (by simp [e])
    have hcs : '\x00' ∉ cs := fun e => h (by simp [e])
    simp [List.takeWhile_cons, hc, ih hcs]

theorem strsep_split {d : Char} {tok : List Char} (h : d ∉ tok) (r : List Char) :
    strsep d (tok ++ d :: r) = (tok, some r) := by
  induction tok with
  | nil => simp [strsep]
  | cons c cs ih =>
    have hc : c ≠ d := fun e => h (by simp [e])
    have hcs : d ∉ cs := fun e => h (by simp [e])
    simp [strsep, hc, ih hcs]

theorem strsep_last {d : Char} {tok : List Char} (h : d ∉ tok) :
    strsep d tok = (tok, none) := by
  induction tok with
  | nil => simp [strsep]
  | cons c cs ih =>
    have hc : c ≠ d := fun e => h (by simp [e])
    have hcs : d ∉ cs := fun e => h (by simp [e])
    simp [strsep, hc, ih hcs]

theorem strchr_split {ch : Char} {v : List Char} (h : ch ∉ v) (r : List Char) :
    strchr (v ++ ch :: r) ch = some (ch :: r) := by
  induction v with
  | nil => simp [strchr]
  | cons c cs ih =>
    have hc : c ≠ ch := fun e => h (by simp [e])
    have hcs : ch ∉ cs := fun e => h (by simp [e])
    simp [strchr, hc, ih hcs]

theorem strchr_none {ch : Char} {v : List Char} (h : ch ∉ v) :
    strchr v ch = none := by
  induction v with
  | nil => simp [strchr]
  | cons c cs ih =>
    have hc : c ≠ ch := fun e => h (by simp [e])
    have hcs : ch ∉ cs := fun e => h (by simp [e])
    simp [strchr, hc, ih hcs]

theorem strstr_first {needle : List Char} (hn : needle ≠ []) (pre post : List Char)
    (h : ¬ needle <:+: pre ++ needle.dropLast) :
    strstr (pre ++ needle ++ post) needle = some (needle ++ post) := by
  induction pre with
  | nil =>
    obtain ⟨a, as, rfl⟩ := List.exists_cons_of_ne_nil hn
    simp [strstr, List.isPrefixOf_iff_prefix]
  | cons p ps ih =>
    have h1 : ¬ needle <:+: ps ++ needle.dropLast := by
      intro hc
      apply h
      obtain ⟨s, t, e⟩ := hc
      exact ⟨p :: s, t, by simp [← e]⟩
    have h2 : needle.isPrefixOf (p :: ps ++ needle ++ post) = false := by
      rw [Bool.eq_false_iff]
      intro hc
      rw [List.isPrefixOf_iff_prefix] at hc
      apply h
      have hp : (p :: ps ++ needle.dropLast) <+: (p :: ps ++ needle ++ post) := by
        refine ⟨[needle.getLast hn] ++ post, ?_⟩
        have := List.dropLast_append_getLast hn
        simp only [List.append_assoc, List.cons_append, List.singleton_append]
        conv_rhs => rw [← this]
        simp
      have hl : needle.length ≤ (p :: ps ++ needle.dropLast).length := by
        simp; omega
      exact (List.prefix_of_prefix_length_le hc hp hl).isInfix
    rw [List.cons_append, List.cons_append, strstr]
    rw [List.cons_append, List.cons_append] at h2
    simp only [h2]
    simpa using ih h1

/-! ## The AF value -/

theorem afTag_dropLast : afTag.dropLast = ['A', 'F'] := rfl

theorem afValue_decomp (pre v post : List Char)
    (hfirst : ¬ afTag <:+: pre ++ ['A', 'F'])
    (hv : ';' ∉ v) (hpost : post = [] ∨ post.head? = some ';') :
    afValue (pre ++ afTag ++ v ++ post) = some v := by
  have hs : strstr (pre ++ afTag ++ (v ++ post)) afTag = some (afTag ++ (v ++ post)) :=
    strstr_first (by decide) pre (v ++ post) (by rwa [afTag_dropLast])
  have hd : (afTag ++ (v ++ post)).drop 3 = v ++ post := rfl
  unfold afValue
  rw [List.append_assoc (pre ++ afTag), hs]
  simp only [hd]
  rcases hpost with rfl | hp
  · rw [List.append_nil, strchr_none hv]
  · obtain ⟨c, cs, rfl⟩ : ∃ c cs, post = c :: cs := by
      cases post with
      | nil => simp at hp
      | cons c cs => exact ⟨c, cs, rfl⟩
    simp only [List.head?_cons, Option.some.injEq] at hp
    subst hp
    rw [strchr_split hv]
    simp

theorem strstr_none {needle : List Char} :
    ∀ hay : List Char, strstr hay needle = none → ¬ needle <:+: hay := by
  intro hay
  induction hay with
  | nil =>
    intro h hc
    have : needle = [] := List.eq_nil_of_infix_nil hc
    subst this
    simp [strstr] at h
  | cons c cs ih =>
    intro h hc
    rw [strstr] at h
    split at h
    · simp at h
    · rename_i hp
      rw [List.infix_cons_iff] at hc
      rcases hc with hc | hc
      · exact hp (List.isPrefixOf_iff_prefix.mpr hc)
      · exact ih h hc

theorem strstr_some {needle : List Char} (hn : needle ≠ []) :
    ∀ hay suf : List Char, strstr hay needle = some suf →
      ∃ pre rest, hay = pre ++ needle ++ rest ∧ suf = needle ++ rest ∧
        ¬ needle <:+: pre ++ needle.dropLast := by
  intro hay
  induction hay with
  | nil =>
    intro suf h
    have : needle.isEmpty = false := by
      cases needle with
      | nil => exact absurd rfl hn
      | cons a as => rfl
    simp [strstr, this] at h
  | cons c cs ih =>
    intro suf h
    rw [strstr] at h
    split at h
    · rename_i hp
      obtain ⟨rest, hr⟩ := List.isPrefixOf_iff_prefix.mp hp
      simp only [Option.some.injEq] at h
      refine ⟨[], rest, by simp [hr], by rw [← h, hr], ?_⟩
      intro hc
      have h1 := hc.length_le
      have h2 : 0 < needle.length := List.length_pos.mpr hn
      simp at h1
      omega
    · rename_i hp
      obtain ⟨pre, rest, e1, e2, e3⟩ := ih suf h
      refine ⟨c :: pre, rest, by simp [e1], e2, ?_⟩
      intro hc
      rw [List.cons_append, List.infix_cons_iff] at hc
      rcases hc with hc | hc
      · apply hp
        rw [List.isPrefixOf_iff_prefix]
        refine hc.trans ?_
        refine ⟨[needle.getLast hn] ++ rest, ?_⟩
        rw [e1]
        have := List.dropLast_append_getLast hn
        simp only [List.append_assoc, List.cons_append, List.singleton_append]
        conv_rhs => rw [← this]
        simp
      · exact e3 hc

theorem afValue_isSome {info : List Char} (h : afTag <:+: info) :
    ∃ v, afValue info = some v := by
  unfold afValue
  cases hs : strstr info afTag with
  | none => exact absurd h (strstr_none info hs)
  | some suf =>
    simp only
    cases strchr (suf.drop 3) ';' <;> simp

theorem span_semicolon (rest : List Char) :
    ∃ v post, rest = v ++ post ∧ ';' ∉ v ∧ (post = [] ∨ post.head? = some ';') := by
  induction rest with
  | nil => exact ⟨[], [], rfl, by simp, Or.inl rfl⟩
  | cons c cs ih =>
    by_cases hc : c = ';'
    · exact ⟨[], c :: cs, rfl, by simp, Or.inr (by simp [hc])⟩
    · obtain ⟨v, post, e, hv, hp⟩ := ih
      refine ⟨c :: v, post, by simp [e], ?_, hp⟩
      simp only [List.mem_cons, not_or]
      exact ⟨fun e => hc e.symm, hv⟩


/-! ## The split loop and the record -/

theorem strsep_field {f rest : List Char} (hf : '\t' ∉ f)
    (hrest : rest = [] ∨ rest.head? = some '\t') :
    (strsep '\t' (f ++ rest)).1 = f := by
  rcases hrest with rfl | hp
  · rw [List.append_nil, strsep_last hf]
  · cases rest with
    | nil => simp at hp
    | cons c cs =>
      simp only [List.head?_cons, Option.some.injEq] at hp
      subst hp
      rw [strsep_split hf]

theorem splitFields_eight (f0 f1 f2 f3 f4 f5 f6 f7 rest : List Char)
    (htab : ∀ f ∈ [f0, f1, f2, f3, f4, f5, f6, f7], '\t' ∉ f)
    (hrest : rest = [] ∨ rest.head? = some '\t') :
    splitFields 8 (some (f0 ++ '\t' :: (f1 ++ '\t' :: (f2 ++ '\t' :: (f3 ++ '\t' ::
      (f4 ++ '\t' :: (f5 ++ '\t' :: (f6 ++ '\t' :: (f7 ++ rest)))))))))
      = [f0, f1, f2, f3, f4, f5, f6, f7] := by
  have h0 := htab f0 (by simp)
  have h1 := htab f1 (by simp)
  have h2 := htab f2 (by simp)
  have h3 := htab f3 (by simp)
  have h4 := htab f4 (by simp)
  have h5 := htab f5 (by simp)
  have h6 := htab f6 (by simp)
  have h7 := htab f7 (by simp)
  simp only [splitFields, strsep_split h0, strsep_split h1, strsep_split h2, strsep_split h3,
    strsep_split h4, strsep_split h5, strsep_split h6, strsep_field h7 hrest]

theorem outputLine_eq (f0 f1 f3 f4 f6 v : List Char) :
    outputLine f0 f1 f3 f4 f6 (afTag ++ v) = expectedRecord f0 f1 f3 f4 f6 v := by
  have e1 : "\t".toList = ['\t'] := rfl
  have e2 : "\t.\t".toList = ['\t', '.', '\t'] := rfl
  have e3 : "\tAF=".toList = ['\t', 'A', 'F', '='] := rfl
  have e4 : "\n".toList = ['\n'] := rfl
  simp [outputLine, expectedRecord, e1, e2, e3, e4, afTag]

theorem dataLine_eight (f0 f1 f2 f3 f4 f5 f6 f7 rest v : List Char)
    (htab : ∀ f ∈ [f0, f1, f2, f3, f4, f5, f6, f7], '\t' ∉ f)
    (hrest : rest = [] ∨ rest.head? = some '\t')
    (hv : afValue f7 = some v) :
    dataLine (f0 ++ '\t' :: (f1 ++ '\t' :: (f2 ++ '\t' :: (f3 ++ '\t' ::
      (f4 ++ '\t' :: (f5 ++ '\t' :: (f6 ++ '\t' :: (f7 ++ rest))))))))
      = .record (expectedRecord f0 f1 f3 f4 f6 v) := by
  unfold dataLine
  rw [splitFields_eight f0 f1 f2 f3 f4 f5 f6 f7 rest htab hrest]
  simp [newInfo, hv, outputLine_eq]

theorem step_line {env : Env} {w : World} {line : List Char} (hne : line ≠ []) :
    step env w (.line line) = body env { w with nread := w.nread + 1 } line := by
  have : 0 < line.length := List.length_pos.mpr hne
  simp [step, ReadResult.status, this]


theorem splitFields_none (n : Nat) : splitFields n none = [] := by
  cases n <;> rfl

theorem strsep_cases (d : Char) (s : List Char) :
    (d ∉ s ∧ strsep d s = (s, none)) ∨
    (∃ tok r, d ∉ tok ∧ s = tok ++ d :: r ∧ strsep d s = (tok, some r)) := by
  induction s with
  | nil => exact Or.inl ⟨by simp, rfl⟩
  | cons c cs ih =>
    by_cases hc : c = d
    · exact Or.inr ⟨[], cs, by simp, by simp [hc], by simp [strsep, hc]⟩
    · rcases ih with ⟨h1, h2⟩ | ⟨tok, r, h1, h2, h3⟩
      · refine Or.inl ⟨?_, by simp [strsep, hc, h2]⟩
        simp only [List.mem_cons, not_or]
        exact ⟨fun e => hc e.symm, h1⟩
      · refine Or.inr ⟨c :: tok, r, ?_, by simp [h2], by simp [strsep, hc, h3]⟩
        simp only [List.mem_cons, not_or]
        exact ⟨fun e => hc e.symm, h1⟩

theorem splitFields_length (n : Nat) (s : List Char) :
    (splitFields n (some s)).length = min n (s.count '\t' + 1) := by
  induction n generalizing s with
  | zero => simp [splitFields]
  | succ n ih =>
    rcases strsep_cases '\t' s with ⟨h1, h2⟩ | ⟨tok, r, h1, h2, h3⟩
    · simp [splitFields, h2, splitFields_none, List.count_eq_zero_of_not_mem h1]
    · have hc : s.count '\t' = r.count '\t' + 1 := by
        rw [h2, List.count_append, List.count_eq_zero_of_not_mem h1]
        simp
      simp only [splitFields, h3, List.length_cons, ih, hc]
      omega

theorem cstr_count_le (c : Char) (s : List Char) : (cstr s).count c ≤ s.count c :=
  (List.takeWhile_sublist _).count_le c

theorem dataLine_few_tabs {line : List Char} (h : line.count '\t' < 7) :
    dataLine (cstr line) = .malformed := by
  have h1 := cstr_count_le '\t' line
  have h2 := splitFields_length 8 (cstr line)
  have h3 : (splitFields 8 (some (cstr line))).length < 8 := by
    rw [h2]; omega
  simp [dataLine, h3]

theorem cstr_append (a b : List Char) :
    cstr (a ++ b) = if '\x00' ∈ a then cstr a else a ++ cstr b := by
  induction a with
  | nil => simp
  | cons c cs ih =>
    by_cases hc : c = '\x00'
    · simp [cstr, hc]
    · have hc2 : ¬ '\x00' = c := fun e => hc e.symm
      have h1 : cstr (c :: (cs ++ b)) = c :: cstr (cs ++ b) := by
        simp [cstr, List.takeWhile_cons, hc]
      have h2 : cstr (c :: cs) = c :: cstr cs := by
        simp [cstr, List.takeWhile_cons, hc]
      rw [List.cons_append, h1, ih, h2]
      by_cases hm : '\x00' ∈ cs <;> simp [hm, hc2]

theorem cstr_tab (r : List Char) : cstr ('\t' :: r) = '\t' :: cstr r := by
  simp [cstr, List.takeWhile_cons]

theorem cstr_initial (s : List Char) : cstr s <+: s :=
  List.takeWhile_prefix _

theorem cstr_joinTabs (fs : List (List Char)) (tail : List Char)
    (htab : ∀ f ∈ fs, '\t' ∉ f) :
    (cstr (joinTabs fs tail)).count '\t' < fs.length ∨
      cstr (joinTabs fs tail) = joinTabs fs (cstr tail) := by
  induction fs with
  | nil => exact Or.inr rfl
  | cons f fs ih =>
    have hf : '\t' ∉ f := htab f (by simp)
    have e : joinTabs (f :: fs) tail = f ++ '\t' :: joinTabs fs tail := rfl
    rw [e, cstr_append]
    by_cases hm : '\x00' ∈ f
    · left
      rw [if_pos hm]
      have := cstr_count_le '\t' f
      rw [List.count_eq_zero_of_not_mem hf] at this
      simp only [List.length_cons]
      omega
    · rw [if_neg hm, cstr_tab]
      rcases ih (fun g hg => htab g (by simp [hg])) with h | h
      · left
        rw [List.count_append, List.count_eq_zero_of_not_mem hf]
        simp only [List.count_cons_self, List.length_cons]
        omega
      · right
        rw [h]
        rfl

theorem afValue_none {info : List Char} (h : ¬ afTag <:+: info) : afValue info = none := by
  unfold afValue
  cases hs : strstr info afTag with
  | none => rfl
  | some suf =>
    obtain ⟨pre, rest, e1, _, _⟩ := strstr_some (by decide) info suf hs
    exact absurd ⟨pre, rest, e1.symm⟩ h

theorem dataLine_eight_noAF (f0 f1 f2 f3 f4 f5 f6 f7 rest : List Char)
    (htab : ∀ f ∈ [f0, f1, f2, f3, f4, f5, f6, f7], '\t' ∉ f)
    (hrest : rest = [] ∨ rest.head? = some '\t')
    (hv : afValue f7 = none) :
    dataLine (f0 ++ '\t' :: (f1 ++ '\t' :: (f2 ++ '\t' :: (f3 ++ '\t' ::
      (f4 ++ '\t' :: (f5 ++ '\t' :: (f6 ++ '\t' :: (f7 ++ rest))))))))
      = .noAF := by
  unfold dataLine
  rw [splitFields_eight f0 f1 f2 f3 f4 f5 f6 f7 rest htab hrest]
  simp [newInfo, hv]

theorem dataLine_cstr_noAF (f0 f1 f2 f3 f4 f5 f6 f7 rest : List Char)
    (htab : ∀ f ∈ [f0, f1, f2, f3, f4, f5, f6, f7], '\t' ∉ f)
    (hrest : rest = [] ∨ rest.head? = some '\t')
    (hno : ¬ afTag <:+: f7) :
    dataLine (cstr (f0 ++ '\t' :: (f1 ++ '\t' :: (f2 ++ '\t' :: (f3 ++ '\t' ::
      (f4 ++ '\t' :: (f5 ++ '\t' :: (f6 ++ '\t' :: (f7 ++ rest)))))))))
      = .noAF ∨
    dataLine (cstr (f0 ++ '\t' :: (f1 ++ '\t' :: (f2 ++ '\t' :: (f3 ++ '\t' ::
      (f4 ++ '\t' :: (f5 ++ '\t' :: (f6 ++ '\t' :: (f7 ++ rest)))))))))
      = .malformed := by
  have hj : f0 ++ '\t' :: (f1 ++ '\t' :: (f2 ++ '\t' :: (f3 ++ '\t' ::
      (f4 ++ '\t' :: (f5 ++ '\t' :: (f6 ++ '\t' :: (f7 ++ rest)))))))
      = joinTabs [f0, f1, f2, f3, f4, f5, f6] (f7 ++ rest) := rfl
  have htab7 : ∀ f ∈ [f0, f1, f2, f3, f4, f5, f6], '\t' ∉ f := by
    intro f hf
    apply htab
    simp only [List.mem_cons, List.mem_singleton, List.not_mem_nil, or_false] at hf ⊢
    tauto
  have h7 : '\t' ∉ f7 := htab f7 (by simp)
  rw [hj]
  rcases cstr_joinTabs [f0, f1, f2, f3, f4, f5, f6] (f7 ++ rest) htab7 with h | h
  · right
    have h2 := splitFields_length 8 (cstr (joinTabs [f0, f1, f2, f3, f4, f5, f6] (f7 ++ rest)))
    have h3 : (splitFields 8
        (some (cstr (joinTabs [f0, f1, f2, f3, f4, f5, f6] (f7 ++ rest))))).length < 8 := by
      rw [h2]
      simp only [List.length_cons, List.length_nil] at h
      omega
    simp [dataLine, h3]
  · left
    rw [h, cstr_append]
    by_cases hm : '\x00' ∈ f7
    · rw [if_pos hm]
      have hp := cstr_initial f7
      have e := dataLine_eight_noAF f0 f1 f2 f3 f4 f5 f6 (cstr f7) []
        (by
          intro f hf
          simp only [List.mem_cons, List.mem_singleton, List.not_mem_nil, or_false] at hf
          rcases hf with rfl | rfl | rfl | rfl | rfl | rfl | rfl | rfl
          iterate 7 exact htab _ (by simp)
          exact fun hc => h7 (hp.subset hc))
        (Or.inl rfl)
        (afValue_none (fun hc => hno (hc.trans hp.isInfix)))
      simpa [joinTabs] using e
    · rw [if_neg hm]
      have hr : cstr rest = [] ∨ (cstr rest).head? = some '\t' := by
        rcases hrest with rfl | hp
        · left; rfl
        · right
          cases rest with
          | nil => simp at hp
          | cons c cs =>
            simp only [List.head?_cons, Option.some.injEq] at hp
            subst hp
            rw [cstr_tab]; rfl
      exact dataLine_eight_noAF f0 f1 f2 f3 f4 f5 f6 f7 (cstr rest) htab hr (afValue_none hno)

/-! ## Runs without failures -/

theorem body_noFailure {env : Env} (hok : env.NoFailure) (w : World) (line : List Char) :
    ∃ w1, body env w line = .next w1 ∧ w1.out = w.out ++ lineOut line ∧ w1.err = w.err ∧
      w1.stdout = w.stdout ∧ w1.nread = w.nread := by
  obtain ⟨hw, hd⟩ := hok
  by_cases hh : line.head? = some '#'
  · simp [body, hh, bgzf_write, hw, lineOut]
  · cases hr : dataLine (cstr line) <;>
      simp [body, hh, strdup, hd, hr, bgzf_write, hw, lineOut]

theorem feed_noFailure {env : Env} (hok : env.NoFailure) (ls : List (List Char))
    (hne : ∀ l ∈ ls, l ≠ []) (w : World) :
    ∃ w1, feed env (ls.map ReadResult.line) w = .next w1 ∧
      w1.out = w.out ++ (ls.map lineOut).flatten ∧ w1.err = w.err ∧
      w1.stdout = w.stdout ∧ w1.nread = w.nread + ls.length := by
  induction ls generalizing w with
  | nil => exact ⟨w, rfl, by simp, rfl, rfl, rfl⟩
  | cons l ls ih =>
    have hl : l ≠ [] := hne l (by simp)
    obtain ⟨w1, h1, o1, e1, s1, n1⟩ := body_noFailure hok { w with nread := w.nread + 1 } l
    obtain ⟨w2, h2, o2, e2, s2, n2⟩ := ih (fun x hx => hne x (by simp [hx])) w1
    refine ⟨w2, ?_, ?_, ?_, ?_, ?_⟩
    · simp only [List.map_cons, feed, step_line hl, h1, h2]
    · rw [o2, o1]; simp
    · rw [e2, e1]
    · rw [s2, s1]
    · rw [n2, n1]; simp; omega

theorem main_noFailure {env : Env} (hop : env.Opens) (hok : env.NoFailure)
    (ls : List (List Char)) (hne : ∀ l ∈ ls, l ≠ []) :
    (main env (ls.map ReadResult.line)).1 = 0 ∧
    (main env (ls.map ReadResult.line)).2.out = (ls.map lineOut).flatten ∧
    (main env (ls.map ReadResult.line)).2.err = [] ∧
    (main env (ls.map ReadResult.line)).2.nread = ls.length + 1 := by
  obtain ⟨ha, hi, ho⟩ := hop
  obtain ⟨w1, h1, o1, e1, _, n1⟩ := feed_noFailure hok ls hne World.start
  simp only [main, ha, hi, ho, loop, h1]
  simp [o1, e1, n1, World.init, World.start]

theorem runOut_eq {env : Env} (hop : env.Opens) (hok : env.NoFailure)
    (ls : List (List Char)) (hne : ∀ l ∈ ls, l ≠ []) :
    runOut env ls = (ls.map lineOut).flatten :=
  (main_noFailure hop hok ls hne).2.1

theorem okEnv_opens : okEnv.Opens := ⟨rfl, rfl, rfl⟩

theorem okEnv_noFailure : okEnv.NoFailure := ⟨fun _ => rfl, fun _ => rfl⟩

/-! ## Control flow of the loop -/

theorem feed_append (env : Env) (a b : List ReadResult) (w : World) :
    feed env (a ++ b) w =
      match feed env a w with
      | .next w1 => feed env b w1
      | .stop w1 => .stop w1 := by
  induction a generalizing w with
  | nil => rfl
  | cons r rs ih =>
    simp only [List.cons_append, feed]
    cases step env w r with
    | next w1 => exact ih w1
    | stop w1 => rfl

theorem body_nread (env : Env) (w : World) (line : List Char) :
    (body env w line).world.nread = w.nread := by
  by_cases hh : line.head? = some '#'
  · by_cases h0 : env.writeOk w.nwrite = true <;>
      by_cases h1 : env.writeOk (w.nwrite + 1) = true <;>
        simp [body, hh, bgzf_write, h0, h1, Ctl.world]
  · by_cases hd : env.dupOk w.ndup = true
    · cases hr : dataLine (cstr line) <;>
        by_cases h0 : env.writeOk w.nwrite = true <;>
          simp [body, hh, strdup, hd, hr, bgzf_write, h0, Ctl.world]
    · simp [body, hh, strdup, hd, Ctl.world]

theorem step_nread (env : Env) (w : World) (r : ReadResult) :
    (step env w r).world.nread = w.nread + 1 := by
  unfold step
  split_ifs
  · cases r with
    | line s => simp only; rw [body_nread]
    | eof => rfl
    | error n => rfl
  · rfl

theorem feed_nread (env : Env) (rs : List ReadResult) (w w1 : World)
    (h : feed env rs w = .next w1) : w1.nread = w.nread + rs.length := by
  induction rs generalizing w with
  | nil =>
    simp only [feed, Ctl.next.injEq] at h
    simp [h]
  | cons r rs ih =>
    have hs := step_nread env w r
    simp only [feed] at h
    cases hst : step env w r with
    | next w2 =>
      rw [hst] at h hs
      have := ih w2 h
      simp only [Ctl.world] at hs
      simp only [List.length_cons]
      omega
    | stop w2 =>
      rw [hst] at h
      cases h

theorem body_write_fail (env : Env) (w : World) (line : List Char) (j : Nat)
    (hj1 : w.nwrite ≤ j) (hj2 : j < (body env w line).world.nwrite)
    (hfail : env.writeOk j = false) :
    (∃ w1, body env w line = .stop w1) ∧ (body env w line).world.nwrite = j + 1 ∧
    ((body env w line).world.out = w.out ∨
      (line.head? = some '#' ∧ j = w.nwrite + 1 ∧ (body env w line).world.out = w.out ++ line)) := by
  by_cases hh : line.head? = some '#'
  · by_cases h0 : env.writeOk w.nwrite = true
    · by_cases h1 : env.writeOk (w.nwrite + 1) = true
      · exfalso
        have hb : (body env w line).world.nwrite = w.nwrite + 1 + 1 := by
          simp [body, hh, bgzf_write, h0, h1, Ctl.world]
        rw [hb] at hj2
        have : j = w.nwrite ∨ j = w.nwrite + 1 := by omega
        rcases this with e | e <;> rw [e] at hfail
        · rw [h0] at hfail; cases hfail
        · rw [h1] at hfail; cases hfail
      · have hb : body env w line = .stop
            { w with out := w.out ++ line, nwrite := w.nwrite + 1 + 1,
                     err := w.err ++ [Diag.writeHeader] } := by
          simp [body, hh, bgzf_write, h0, h1]
        rw [hb] at hj2 ⊢
        simp only [Ctl.world] at hj2 ⊢
        have : j = w.nwrite + 1 := by
          rcases Nat.lt_or_ge w.nwrite j with h | h
          · omega
          · have e : j = w.nwrite := by omega
            rw [e, h0] at hfail; cases hfail
        exact ⟨⟨_, rfl⟩, by omega, Or.inr ⟨hh, this, trivial⟩⟩
    · have hb : body env w line = .stop
          { w with nwrite := w.nwrite + 1, err := w.err ++ [Diag.writeHeader] } := by
        simp [body, hh, bgzf_write, h0]
      rw [hb] at hj2 ⊢
      simp only [Ctl.world] at hj2 ⊢
      exact ⟨⟨_, rfl⟩, by omega, Or.inl trivial⟩
  · by_cases hd : env.dupOk w.ndup = true
    · cases hr : dataLine (cstr line) with
      | malformed =>
        have hb : (body env w line).world.nwrite = w.nwrite := by
          simp [body, hh, strdup, hd, hr, Ctl.world]
        omega
      | noAF =>
        have hb : (body env w line).world.nwrite = w.nwrite := by
          simp [body, hh, strdup, hd, hr, Ctl.world]
        omega
      | record bytes =>
        by_cases h0 : env.writeOk w.nwrite = true
        · exfalso
          have hb : (body env w line).world.nwrite = w.nwrite + 1 := by
            simp [body, hh, strdup, hd, hr, bgzf_write, h0, Ctl.world]
          have e : j = w.nwrite := by omega
          rw [e, h0] at hfail; cases hfail
        · have hb : body env w line = .stop
              { w with ndup := w.ndup + 1, nwrite := w.nwrite + 1,
                       err := w.err ++ [Diag.writeData] } := by
            simp [body, hh, strdup, hd, hr, bgzf_write, h0]
          rw [hb] at hj2 ⊢
          simp only [Ctl.world] at hj2 ⊢
          exact ⟨⟨_, rfl⟩, by omega, Or.inl trivial⟩
    · have hb : (body env w line).world.nwrite = w.nwrite := by
        simp [body, hh, strdup, hd, Ctl.world]
      omega

theorem step_write_fail (env : Env) (w : World) (r : ReadResult) (j : Nat)
    (hj1 : w.nwrite ≤ j) (hj2 : j < (step env w r).world.nwrite)
    (hfail : env.writeOk j = false) :
    (∃ w1, step env w r = .stop w1) ∧ (step env w r).world.nwrite = j + 1 ∧
    ((step env w r).world.out = w.out ∨
      ∃ s, r = .line s ∧ s.head? = some '#' ∧ j = w.nwrite + 1 ∧
        (step env w r).world.out = w.out ++ s) := by
  unfold step at hj2 ⊢
  by_cases hs : 0 < r.status
  · simp only [hs, if_true] at hj2 ⊢
    cases r with
    | line s =>
      simp only at hj2 ⊢
      obtain ⟨h1, h2, h3⟩ := body_write_fail env { w with nread := w.nread + 1 } s j hj1 hj2 hfail
      refine ⟨h1, h2, ?_⟩
      rcases h3 with h3 | ⟨a, b, c⟩
      · exact Or.inl h3
      · exact Or.inr ⟨s, rfl, a, b, c⟩
    | eof => simp only [Ctl.world] at hj2; omega
    | error n => simp only [Ctl.world] at hj2; omega
  · simp only [hs, if_false, Ctl.world] at hj2
    omega

/-! ## What an accepted line looks like -/

theorem splitFields_eq_splitOn (n : Nat) (s : List Char) :
    splitFields n (some s) = (s.splitOn '\t').take n := by
  induction n generalizing s with
  | zero => simp [splitFields]
  | succ n ih =>
    rcases strsep_cases '\t' s with ⟨h1, h2⟩ | ⟨tok, r, h1, h2, h3⟩
    · have e : s.splitOn '\t' = [s] := by
        apply List.splitOnP_eq_single
        intro x hx hc
        rw [eq_of_beq hc] at hx
        exact h1 hx
      simp [splitFields, h2, splitFields_none, e]
    · have e : s.splitOn '\t' = tok :: r.splitOn '\t' := by
        rw [h2]
        apply List.splitOnP_first
        · intro x hx hc
          rw [eq_of_beq hc] at hx
          exact h1 hx
        · exact beq_self_eq_true _
      simp [splitFields, h3, e, ih]

theorem splitFields_full (n : Nat) (s : List Char)
    (h : (splitFields (n + 1) (some s)).length = n + 1) :
    ∃ fs f rest, fs.length = n ∧ (∀ g ∈ fs, '\t' ∉ g) ∧ '\t' ∉ f ∧
      (rest = [] ∨ rest.head? = some '\t') ∧ s = joinTabs fs (f ++ rest) ∧
      splitFields (n + 1) (some s) = fs ++ [f] := by
  induction n generalizing s with
  | zero =>
    rcases strsep_cases '\t' s with ⟨h1, h2⟩ | ⟨tok, r, h1, h2, h3⟩
    · exact ⟨[], s, [], rfl, by simp, h1, Or.inl rfl, by simp [joinTabs],
        by simp [splitFields, h2]⟩
    · exact ⟨[], tok, '\t' :: r, rfl, by simp, h1, Or.inr rfl, by simp [joinTabs, h2],
        by simp [splitFields, h3]⟩
  | succ n ih =>
    rcases strsep_cases '\t' s with ⟨h1, h2⟩ | ⟨tok, r, h1, h2, h3⟩
    · simp [splitFields, h2, splitFields_none] at h
    · have hr : (splitFields (n + 1) (some r)).length = n + 1 := by
        have e : splitFields (n + 1 + 1) (some s) = tok :: splitFields (n + 1) (some r) := by
          simp [splitFields, h3]
        rw [e] at h
        simpa using h
      obtain ⟨fs, f, rest, a1, a2, a3, a4, a5, a6⟩ := ih r hr
      refine ⟨tok :: fs, f, rest, by simp [a1], ?_, a3, a4, ?_, ?_⟩
      · intro g hg
        rcases List.mem_cons.mp hg with rfl | hg
        · exact h1
        · exact a2 g hg
      · rw [h2, a5]; rfl
      · have e : splitFields (n + 1 + 1) (some s) = tok :: splitFields (n + 1) (some r) := by
          simp [splitFields, h3]
        rw [e, a6]; rfl

theorem splitFields_eight_inv (s : List Char)
    (h : ¬ (splitFields 8 (some s)).length < 8) :
    ∃ f0 f1 f2 f3 f4 f5 f6 f7 rest,
      s = f0 ++ '\t' :: (f1 ++ '\t' :: (f2 ++ '\t' :: (f3 ++ '\t' ::
        (f4 ++ '\t' :: (f5 ++ '\t' :: (f6 ++ '\t' :: (f7 ++ rest))))))) ∧
      (∀ f ∈ [f0, f1, f2, f3, f4, f5, f6, f7], '\t' ∉ f) ∧
      (rest = [] ∨ rest.head? = some '\t') := by
  have hl : (splitFields (7 + 1) (some s)).length = 7 + 1 := by
    have := splitFields_length 8 s
    show (splitFields 8 (some s)).length = 8
    omega
  obtain ⟨fs, f, rest, a1, a2, a3, a4, a5, _⟩ := splitFields_full 7 s hl
  match fs, a1 with
  | [f0, f1, f2, f3, f4, f5, f6], _ =>
    refine ⟨f0, f1, f2, f3, f4, f5, f6, f, rest, by rw [a5]; rfl, ?_, a4⟩
    intro g hg
    simp only [List.mem_cons, List.mem_singleton, List.not_mem_nil, or_false] at hg
    rcases hg with rfl | rfl | rfl | rfl | rfl | rfl | rfl | rfl
    iterate 7 exact a2 _ (by simp)
    exact a3

theorem afValue_some_inv {info v : List Char} (h : afValue info = some v) :
    ∃ pre post, info = pre ++ afTag ++ v ++ post ∧ ¬ afTag <:+: pre ++ ['A', 'F'] ∧
      ';' ∉ v ∧ (post = [] ∨ post.head? = some ';') := by
  cases hs : strstr info afTag with
  | none =>
    have : afValue info = none := by simp [afValue, hs]
    rw [this] at h; cases h
  | some suf =>
    obtain ⟨pre, rest, e1, _, e3⟩ := strstr_some (by decide) info suf hs
    obtain ⟨v1, post, e, hv, hp⟩ := span_semicolon rest
    rw [afTag_dropLast] at e3
    have h2 := afValue_decomp pre v1 post e3 hv hp
    have e4 : info = pre ++ afTag ++ v1 ++ post := by
      rw [e1, e, List.append_assoc, List.append_assoc, List.append_assoc]
    rw [← e4, h] at h2
    cases h2
    exact ⟨pre, post, e4, e3, hv, hp⟩

theorem dataLine_record_inv {s bytes : List Char} (h : dataLine s = .record bytes) :
    ∃ f0 f1 f2 f3 f4 f5 f6 f7 rest v,
      s = f0 ++ '\t' :: (f1 ++ '\t' :: (f2 ++ '\t' :: (f3 ++ '\t' ::
        (f4 ++ '\t' :: (f5 ++ '\t' :: (f6 ++ '\t' :: (f7 ++ rest))))))) ∧
      (∀ f ∈ [f0, f1, f2, f3, f4, f5, f6, f7], '\t' ∉ f) ∧
      (rest = [] ∨ rest.head? = some '\t') ∧
      afValue f7 = some v ∧ bytes = expectedRecord f0 f1 f3 f4 f6 v := by
  by_cases hl : (splitFields 8 (some s)).length < 8
  · simp [dataLine, hl] at h
  · obtain ⟨f0, f1, f2, f3, f4, f5, f6, f7, rest, e, htab, hrest⟩ := splitFields_eight_inv s hl
    cases hv : afValue f7 with
    | none =>
      have := dataLine_eight_noAF f0 f1 f2 f3 f4 f5 f6 f7 rest htab hrest hv
      rw [← e, h] at this
      cases this
    | some v =>
      have := dataLine_eight f0 f1 f2 f3 f4 f5 f6 f7 rest v htab hrest hv
      rw [← e, h] at this
      cases this
      exact ⟨f0, f1, f2, f3, f4, f5, f6, f7, rest, v, e, htab, hrest, hv, rfl⟩

theorem splitOn_joinTabs (fs : List (List Char)) (last : List Char)
    (hfs : ∀ g ∈ fs, '\t' ∉ g) (hlast : '\t' ∉ last) :
    (joinTabs fs last).splitOn '\t' = fs ++ [last] := by
  induction fs with
  | nil =>
    apply List.splitOnP_eq_single
    intro x hx hc
    rw [eq_of_beq hc] at hx
    exact hlast hx
  | cons f fs ih =>
    have e : (joinTabs (f :: fs) last).splitOn '\t' = f :: (joinTabs fs last).splitOn '\t' := by
      apply List.splitOnP_first
      · intro x hx hc
        rw [eq_of_beq hc] at hx
        exact hfs f (by simp) hx
      · exact beq_self_eq_true _
    rw [e, ih (fun g hg => hfs g (by simp [hg]))]
    rfl

theorem expectedRecord_eq_joinTabs (f0 f1 f3 f4 f6 v : List Char) :
    expectedRecord f0 f1 f3 f4 f6 v
      = joinTabs [f0, f1, ['.'], f3, f4, ['.'], f6] (afTag ++ v) ++ ['\n'] := by
  have e1 : "\t".toList = ['\t'] := rfl
  have e2 : "\t.\t".toList = ['\t', '.', '\t'] := rfl
  have e3 : "\tAF=".toList = ['\t', 'A', 'F', '='] := rfl
  have e4 : "\n".toList = ['\n'] := rfl
  simp [expectedRecord, joinTabs, e1, e2, e3, e4, afTag]

theorem afValue_sub {info v : List Char} (h : afValue info = some v) : v ⊆ info := by
  obtain ⟨pre, post, e, _, _, _⟩ := afValue_some_inv h
  intro c hc
  rw [e]
  simp [hc]


theorem dataLine_malformed_iff (s : List Char) :
    dataLine s = .malformed ↔ s.count '\t' < 7 := by
  have hlen := splitFields_length 8 s
  constructor
  · intro h
    by_cases hl : (splitFields 8 (some s)).length < 8
    · omega
    · exfalso
      unfold dataLine at h
      simp only [hl, if_false] at h
      cases hn : newInfo ((splitFields 8 (some s)).getD 7 []) <;> rw [hn] at h <;> cases h
  · intro h
    have hl : (splitFields 8 (some s)).length < 8 := by omega
    simp [dataLine, hl]

theorem body_congr {env : Env} {w : World} {la lb : List Char}
    (ha : la.head? ≠ some '#') (hb : lb.head? ≠ some '#')
    (h : dataLine (cstr la) = dataLine (cstr lb)) :
    body env w la = body env w lb := by
  simp only [body, ha, hb, if_false, strdup]
  split_ifs
  · simp only [h]
  · rfl

theorem count_joinTabs (fs : List (List Char)) (last : List Char)
    (hfs : ∀ g ∈ fs, '\t' ∉ g) (hlast : '\t' ∉ last) :
    (joinTabs fs last).count '\t' = fs.length := by
  induction fs with
  | nil => simpa [joinTabs] using List.count_eq_zero_of_not_mem hlast
  | cons f fs ih =>
    have e : joinTabs (f :: fs) last = f ++ '\t' :: joinTabs fs last := rfl
    rw [e, List.count_append, List.count_eq_zero_of_not_mem (hfs f (by simp)),
      List.count_cons_self, ih (fun g hg => hfs g (by simp [hg]))]
    simp

theorem not_mem_joinTabs (c : Char) (hc : c ≠ '\t') (fs : List (List Char)) (last : List Char)
    (hfs : ∀ g ∈ fs, c ∉ g) (hlast : c ∉ last) : c ∉ joinTabs fs last := by
  induction fs with
  | nil => simpa [joinTabs] using hlast
  | cons f fs ih =>
    have e : joinTabs (f :: fs) last = f ++ '\t' :: joinTabs fs last := rfl
    rw [e]
    simp only [List.mem_append, List.mem_cons, not_or]
    exact ⟨hfs f (by simp), hc, ih (fun g hg => hfs g (by simp [hg]))⟩

theorem record_step (env : Env) (w : World) (line bytes : List Char)
    (hne : line ≠ []) (hdata : line.head? ≠ some '#')
    (hrec : dataLine (cstr line) = .record bytes)
    (hdup : env.dupOk w.ndup = true) (hw : env.writeOk w.nwrite = true) :
    step env w (.line line) = .next
      { w with out := w.out ++ bytes, nread := w.nread + 1, nwrite := w.nwrite + 1,
               ndup := w.ndup + 1 } := by
  rw [step_line hne]
  simp [body, hdata, strdup, hdup, hrec, bgzf_write, hw]

theorem body_err (env : Env) (w : World) (line : List Char) (d : Diag)
    (h : d ∈ (body env w line).world.err) : d ∈ w.err ∨ d.loopCause env := by
  by_cases hh : line.head? = some '#'
  · by_cases h0 : env.writeOk w.nwrite = true
    · by_cases h1 : env.writeOk (w.nwrite + 1) = true
      · left
        simpa [body, hh, bgzf_write, h0, h1, Ctl.world] using h
      · have h1f : env.writeOk (w.nwrite + 1) = false := by simpa using h1
        simp only [body, hh, bgzf_write, h0, h1, if_true, Bool.not_true, Bool.false_eq_true,
          if_false, Bool.not_false, Ctl.world, List.mem_append, List.mem_singleton] at h
        rcases h with h | h
        · exact Or.inl h
        · exact Or.inr (Or.inr ⟨Or.inl h, _, h1f⟩)
    · have h0f : env.writeOk w.nwrite = false := by simpa using h0
      simp only [body, hh, bgzf_write, h0, if_true, Bool.false_eq_true,
        if_false, Bool.not_false, Ctl.world, List.mem_append, List.mem_singleton] at h
      rcases h with h | h
      · exact Or.inl h
      · exact Or.inr (Or.inr ⟨Or.inl h, _, h0f⟩)
  · by_cases hd : env.dupOk w.ndup = true
    · cases hr : dataLine (cstr line) with
      | malformed =>
        left
        simpa [body, hh, strdup, hd, hr, Ctl.world] using h
      | noAF =>
        left
        simpa [body, hh, strdup, hd, hr, Ctl.world] using h
      | record bytes =>
        by_cases h0 : env.writeOk w.nwrite = true
        · left
          simpa [body, hh, strdup, hd, hr, bgzf_write, h0, Ctl.world] using h
        · have h0f : env.writeOk w.nwrite = false := by simpa using h0
          simp only [body, hh, strdup, hd, hr, bgzf_write, h0, if_true, Bool.false_eq_true,
            if_false, Bool.not_false, Ctl.world, List.mem_append, List.mem_singleton] at h
          rcases h with h | h
          · exact Or.inl h
          · exact Or.inr (Or.inr ⟨Or.inr h, _, h0f⟩)
    · have hdf : env.dupOk w.ndup = false := by simpa using hd
      simp only [body, hh, strdup, hd, Bool.false_eq_true, if_false, Ctl.world,
        List.mem_append, List.mem_singleton] at h
      rcases h with h | h
      · exact Or.inl h
      · exact Or.inr (Or.inl ⟨h, _, hdf⟩)

theorem body_stdout (env : Env) (w : World) (line : List Char) :
    (body env w line).world.stdout = w.stdout := by
  by_cases hh : line.head? = some '#'
  · by_cases h0 : env.writeOk w.nwrite = true <;>
      by_cases h1 : env.writeOk (w.nwrite + 1) = true <;>
        simp [body, hh, bgzf_write, h0, h1, Ctl.world]
  · by_cases hd : env.dupOk w.ndup = true
    · cases hr : dataLine (cstr line) <;>
        by_cases h0 : env.writeOk w.nwrite = true <;>
          simp [body, hh, strdup, hd, hr, bgzf_write, h0, Ctl.world]
    · simp [body, hh, strdup, hd, Ctl.world]

theorem step_err (env : Env) (w : World) (r : ReadResult) (d : Diag)
    (h : d ∈ (step env w r).world.err) : d ∈ w.err ∨ d.loopCause env := by
  unfold step at h
  by_cases hs : 0 < r.status
  · simp only [hs, if_true] at h
    cases r with
    | line s =>
      have h2 := body_err env { w with nread := w.nread + 1 } s d h
      exact h2
    | eof => exact Or.inl h
    | error n => exact Or.inl h
  · simp only [hs, if_false] at h
    exact Or.inl h

theorem step_stdout (env : Env) (w : World) (r : ReadResult) :
    (step env w r).world.stdout = w.stdout := by
  unfold step
  by_cases hs : 0 < r.status
  · simp only [hs, if_true]
    cases r with
    | line s => exact body_stdout env _ s
    | eof => rfl
    | error n => rfl
  · simp only [hs, if_false]
    rfl

theorem loop_err (env : Env) (rs : List ReadResult) (w : World) (d : Diag)
    (h : d ∈ (loop env rs w).err) : d ∈ w.err ∨ d.loopCause env := by
  induction rs generalizing w with
  | nil => exact Or.inl h
  | cons r rs ih =>
    have hs := step_err env w r d
    cases hst : step env w r with
    | next w1 =>
      rw [hst] at hs
      have hl : loop env (r :: rs) w = loop env rs w1 := by simp [loop, feed, hst]
      rw [hl] at h
      rcases ih w1 h with h1 | h1
      · exact hs h1
      · exact Or.inr h1
    | stop w1 =>
      rw [hst] at hs
      have hl : loop env (r :: rs) w = w1 := by simp [loop, feed, hst]
      rw [hl] at h
      exact hs h

theorem loop_stdout (env : Env) (rs : List ReadResult) (w : World) :
    (loop env rs w).stdout = w.stdout := by
  induction rs generalizing w with
  | nil => rfl
  | cons r rs ih =>
    have hs := step_stdout env w r
    cases hst : step env w r with
    | next w1 =>
      rw [hst] at hs
      have hl : loop env (r :: rs) w = loop env rs w1 := by simp [loop, feed, hst]
      rw [hl, ih w1]
      exact hs
    | stop w1 =>
      rw [hst] at hs
      have hl : loop env (r :: rs) w = w1 := by simp [loop, feed, hst]
      rw [hl]
      exact hs

theorem main_err (env : Env) (rs : List ReadResult) (d : Diag)
    (h : d ∈ (main env rs).2.err) :
    (d = Diag.usage (env.argv.getD 0 []) ∧ env.argv.length ≠ 3) ∨
    (d = Diag.openInput (env.argv.getD 1 []) ∧ env.inOpens = false) ∨
    (d = Diag.openOutput (env.argv.getD 2 []) ∧ env.outOpens = false) ∨
    d.loopCause env := by
  by_cases ha : env.argv.length = 3
  · by_cases hi : env.inOpens = true
    · by_cases ho : env.outOpens = true
      · simp only [main, ha, hi, ho, ne_eq, not_true_eq_false, if_false, Bool.not_true,
          Bool.false_eq_true] at h
        rcases loop_err env rs World.start d h with h1 | h1
        · simp [World.start, World.init] at h1
        · exact Or.inr (Or.inr (Or.inr h1))
      · have hof : env.outOpens = false := by simpa using ho
        simp only [main, ha, hi, hof, ne_eq, not_true_eq_false, if_false, Bool.not_true,
          Bool.false_eq_true, Bool.not_false, if_true, List.mem_singleton] at h
        exact Or.inr (Or.inr (Or.inl ⟨h, hof⟩))
    · have hif : env.inOpens = false := by simpa using hi
      simp only [main, ha, hif, ne_eq, not_true_eq_false, if_false,
        Bool.not_false, if_true, List.mem_singleton] at h
      exact Or.inr (Or.inl ⟨h, hif⟩)
  · simp only [main, ha, ne_eq, not_false_eq_true, if_true, List.mem_singleton] at h
    exact Or.inl ⟨h, ha⟩

theorem main_silent {env : Env} (hop : env.Opens) (hok : env.NoFailure)
    (rs : List ReadResult) :
    (main env rs).2.err = [] ∧
    (main env rs).2.stdout = [summary (env.argv.getD 1 []) (env.argv.getD 2 [])] := by
  constructor
  · rw [List.eq_nil_iff_forall_not_mem]
    intro d hd
    obtain ⟨ha, hi, ho⟩ := hop
    obtain ⟨hw, hdup⟩ := hok
    rcases main_err env rs d hd with h | h | h | h | h
    · exact h.2 ha
    · rw [hi] at h; cases h.2
    · rw [ho] at h; cases h.2
    · obtain ⟨_, k, hk⟩ := h
      rw [hdup k] at hk; cases hk
    · obtain ⟨_, k, hk⟩ := h
      rw [hw k] at hk; cases hk
  · obtain ⟨ha, hi, ho⟩ := hop
    simp only [main, ha, hi, ho, ne_eq, not_true_eq_false, if_false, Bool.not_true,
      Bool.false_eq_true, loop_stdout]
    simp [World.start, World.init]

theorem linesOf_line (c rest : List Char) (hc : '\n' ∉ c) :
    linesOf (c ++ '\n' :: rest) = c :: linesOf rest := by
  induction c with
  | nil => simp [linesOf]
  | cons a c ih =>
    have ha : a ≠ '\n' := fun e => hc (by simp [e])
    have hc2 : '\n' ∉ c := fun e => hc (by simp [e])
    simp [linesOf, ha, ih hc2]

theorem loop_out_noFailure {env : Env} (hok : env.NoFailure) (ls : List (List Char))
    (w : World) :
    (loop env (ls.map ReadResult.line) w).out
      = w.out ++ ((ls.takeWhile (fun l => !l.isEmpty)).map lineOut).flatten := by
  induction ls generalizing w with
  | nil => simp [loop, feed]
  | cons l ls ih =>
    cases l with
    | nil => simp [loop, feed, step, ReadResult.status]
    | cons c cs =>
      obtain ⟨w1, h1, o1, _, _, _⟩ :=
        body_noFailure hok { w with nread := w.nread + 1 } (c :: cs)
      have hs : step env w (.line (c :: cs)) = .next w1 := by
        rw [step_line (by simp), h1]
      have hl : loop env ((c :: cs) :: ls |>.map ReadResult.line) w
          = loop env (ls.map ReadResult.line) w1 := by
        simp [loop, feed, hs]
      rw [hl, ih w1, o1]
      simp

theorem runOut_eq_takeWhile {env : Env} (hop : env.Opens) (hok : env.NoFailure)
    (ls : List (List Char)) :
    runOut env ls = ((ls.takeWhile (fun l => !l.isEmpty)).map lineOut).flatten := by
  obtain ⟨ha, hi, ho⟩ := hop
  simp only [runOut, main, ha, hi, ho, ne_eq, not_true_eq_false, if_false, Bool.not_true,
    Bool.false_eq_true, loop_out_noFailure hok]
  simp [World.start, World.init]

theorem lineOut_eq_outLine (line : List Char) :
    lineOut line = match outLine line with
      | some c => c ++ ['\n']
      | none => [] := by
  unfold lineOut outLine
  by_cases hh : line.head? = some '#'
  · simp [hh]
  · simp only [hh, if_false]
    cases hr : dataLine (cstr line) with
    | malformed => rfl
    | noAF => rfl
    | record bytes =>
      obtain ⟨f0, f1, f2, f3, f4, f5, f6, f7, rest, v, _, _, _, _, hb⟩ := dataLine_record_inv hr
      simp only
      rw [hb, expectedRecord_eq_joinTabs, List.dropLast_concat]

theorem nul_not_mem_cstr (s : List Char) : '\x00' ∉ cstr s := by
  intro h
  have := List.mem_takeWhile_imp h
  simp at this

theorem cstr_head (s : List Char) (x : Char) (h : (cstr s).head? = some x) :
    s.head? = some x := by
  obtain ⟨t, ht⟩ := cstr_initial s
  cases hc : cstr s with
  | nil => rw [hc] at h; cases h
  | cons a as =>
    rw [hc] at h ht
    rw [← ht]
    simpa using h

theorem record_fixed (line bytes : List Char) (hdata : line.head? ≠ some '#')
    (hrec : dataLine (cstr line) = .record bytes) :
    bytes.dropLast ≠ [] ∧ bytes.dropLast.head? ≠ some '#' ∧ '\x00' ∉ bytes.dropLast ∧
    dataLine (cstr bytes.dropLast) = .record bytes ∧
    ('\n' ∉ line → '\n' ∉ bytes.dropLast) := by
  obtain ⟨f0, f1, f2, f3, f4, f5, f6, f7, rest, v, e, htab, hrest, hv, hb⟩ :=
    dataLine_record_inv hrec
  obtain ⟨pre, post, e7, _, hsemi, _⟩ := afValue_some_inv hv
  have hv7 : v ⊆ f7 := afValue_sub hv
  have hd : bytes.dropLast = joinTabs [f0, f1, ['.'], f3, f4, ['.'], f6] (afTag ++ v) := by
    rw [hb, expectedRecord_eq_joinTabs, List.dropLast_concat]
  have hsub : ∀ g ∈ [f0, f1, f3, f4, f6, f7], g ⊆ cstr line := by
    intro g hg c hc
    simp only [List.mem_cons, List.mem_singleton, List.not_mem_nil, or_false] at hg
    rw [e]
    rcases hg with rfl | rfl | rfl | rfl | rfl | rfl <;> simp [hc]
  have hfree : ∀ c : Char, c ≠ '\t' → c ≠ '.' → c ∉ afTag → c ∉ cstr line →
      c ∉ bytes.dropLast := by
    intro c h1 h2 h3 h4
    rw [hd]
    apply not_mem_joinTabs c h1
    · intro g hg hc
      simp only [List.mem_cons, List.mem_singleton, List.not_mem_nil, or_false] at hg
      rcases hg with rfl | rfl | rfl | rfl | rfl | rfl | rfl
      · exact h4 (hsub _ (by simp) hc)
      · exact h4 (hsub _ (by simp) hc)
      · exact h2 (by simpa using hc)
      · exact h4 (hsub _ (by simp) hc)
      · exact h4 (hsub _ (by simp) hc)
      · exact h2 (by simpa using hc)
      · exact h4 (hsub _ (by simp) hc)
    · intro hc
      rcases List.mem_append.mp hc with hc | hc
      · exact h3 hc
      · exact h4 (hsub f7 (by simp) (hv7 hc))
  have hnul : '\x00' ∉ bytes.dropLast :=
    hfree '\x00' (by decide) (by decide) (by decide) (nul_not_mem_cstr line)
  have htab2 : ∀ f ∈ [f0, f1, ['.'], f3, f4, ['.'], f6, afTag ++ v], '\t' ∉ f := by
    intro g hg
    simp only [List.mem_cons, List.mem_singleton, List.not_mem_nil, or_false] at hg
    rcases hg with rfl | rfl | rfl | rfl | rfl | rfl | rfl | rfl
    · exact htab _ (by simp)
    · exact htab _ (by simp)
    · decide
    · exact htab _ (by simp)
    · exact htab _ (by simp)
    · decide
    · exact htab _ (by simp)
    · intro hc
      rcases List.mem_append.mp hc with hc | hc
      · revert hc; decide
      · exact htab f7 (by simp) (hv7 hc)
  have hval : afValue (afTag ++ v) = some v := by
    have := afValue_decomp [] v [] (by decide) hsemi (Or.inl rfl)
    simpa using this
  have hform : bytes.dropLast = f0 ++ '\t' :: (f1 ++ '\t' :: (['.'] ++ '\t' :: (f3 ++ '\t' ::
      (f4 ++ '\t' :: (['.'] ++ '\t' :: (f6 ++ '\t' :: ((afTag ++ v) ++ []))))))) := by
    rw [hd]; simp [joinTabs]
  refine ⟨?_, ?_, hnul, ?_, ?_⟩
  · intro hc
    have := congrArg List.length (hform.symm.trans hc)
    simp at this
  · rw [hform]
    cases hf0 : f0 with
    | nil => simp
    | cons a as =>
      intro hc
      apply hdata
      apply cstr_head
      rw [e, hf0]
      simpa using hc
  · rw [cstr_eq_self hnul, hform,
      dataLine_eight f0 f1 ['.'] f3 f4 ['.'] f6 (afTag ++ v) [] v htab2 (Or.inl rfl) hval, hb]
  · intro hnl
    exact hfree '\n' (by decide) (by decide) (by decide)
      (fun hc => hnl ((cstr_initial line).subset hc))

theorem outLine_fixed (line c : List Char) (hnl : '\n' ∉ line) (h : outLine line = some c) :
    c ≠ [] ∧ '\n' ∉ c ∧ outLine c = some c ∧ lineOut c = c ++ ['\n'] ∧
    lineOut line = c ++ ['\n'] := by
  have hline : lineOut line = c ++ ['\n'] := by rw [lineOut_eq_outLine, h]
  have key : c ≠ [] ∧ '\n' ∉ c ∧ outLine c = some c := by
    unfold outLine at h
    by_cases hh : line.head? = some '#'
    · simp only [hh, if_true, Option.some.injEq] at h
      subst h
      refine ⟨?_, hnl, by simp [outLine, hh]⟩
      intro e
      rw [e] at hh
      cases hh
    · simp only [hh, if_false] at h
      cases hr : dataLine (cstr line) with
      | malformed => rw [hr] at h; cases h
      | noAF => rw [hr] at h; cases h
      | record bytes =>
        rw [hr] at h
        simp only [Option.some.injEq] at h
        obtain ⟨a1, a2, _, a4, a5⟩ := record_fixed line bytes hh hr
        subst h
        refine ⟨a1, a5 hnl, ?_⟩
        simp [outLine, a2, a4]
  refine ⟨key.1, key.2.1, key.2.2, ?_, hline⟩
  rw [lineOut_eq_outLine, key.2.2]

theorem linesOf_output (ys : List (List Char)) (hnl : ∀ l ∈ ys, '\n' ∉ l) :
    linesOf ((ys.map lineOut).flatten) = ys.filterMap outLine ∧
    ((ys.filterMap outLine).map lineOut).flatten = (ys.map lineOut).flatten ∧
    (∀ z ∈ ys.filterMap outLine, z ≠ [] ∧ lineOut z = z ++ ['\n']) := by
  induction ys with
  | nil => simp [linesOf]
  | cons y ys ih =>
    obtain ⟨i1, i2, i3⟩ := ih (fun l hl => hnl l (by simp [hl]))
    cases hy : outLine y with
    | none =>
      have hl : lineOut y = [] := by rw [lineOut_eq_outLine, hy]
      simp only [List.map_cons, List.flatten_cons, hl, List.nil_append,
        List.filterMap_cons, hy]
      exact ⟨i1, i2, i3⟩
    | some c =>
      obtain ⟨a1, a2, _, a4, a5⟩ := outLine_fixed y c (hnl y (by simp)) hy
      simp only [List.map_cons, List.flatten_cons, a5, List.filterMap_cons, hy, a4]
      refine ⟨?_, ?_, ?_⟩
      · rw [List.append_assoc, List.singleton_append, linesOf_line c _ a2, i1]
      · rw [i2]
      · intro z hz
        rcases List.mem_cons.mp hz with rfl | hz
        · exact ⟨a1, a4⟩
        · exact i3 z hz

/-! ## Lines with NUL bytes -/

theorem cstr_joinTabs_noNul (fs : List (List Char)) (tail : List Char)
    (h : ∀ f ∈ fs, '\x00' ∉ f) :
    cstr (joinTabs fs tail) = joinTabs fs (cstr tail) := by
  induction fs with
  | nil => rfl
  | cons f fs ih =>
    have e : joinTabs (f :: fs) tail = f ++ '\t' :: joinTabs fs tail := rfl
    rw [e, cstr_append, if_neg (h f (by simp)), cstr_tab, ih (fun g hg => h g (by simp [hg]))]
    rfl

theorem cstr_joinTabs_nul (fs : List (List Char)) (tail : List Char)
    (htab : ∀ f ∈ fs, '\t' ∉ f) (h : ∃ f ∈ fs, '\x00' ∈ f) :
    (cstr (joinTabs fs tail)).count '\t' < fs.length := by
  induction fs with
  | nil =>
    obtain ⟨f, hf, _⟩ := h
    simp at hf
  | cons f fs ih =>
    have hf : '\t' ∉ f := htab f (by simp)
    have e : joinTabs (f :: fs) tail = f ++ '\t' :: joinTabs fs tail := rfl
    rw [e, cstr_append]
    by_cases hm : '\x00' ∈ f
    · rw [if_pos hm]
      have := cstr_count_le '\t' f
      rw [List.count_eq_zero_of_not_mem hf] at this
      simp only [List.length_cons]
      omega
    · rw [if_neg hm, cstr_tab]
      have h2 : ∃ g ∈ fs, '\x00' ∈ g := by
        obtain ⟨g, hg, hn⟩ := h
        rcases List.mem_cons.mp hg with rfl | hg
        · exact absurd hn hm
        · exact ⟨g, hg, hn⟩
      have := ih (fun g hg => htab g (by simp [hg])) h2
      rw [List.count_append, List.count_eq_zero_of_not_mem hf]
      simp only [List.count_cons_self, List.length_cons]
      omega

theorem cstr_last_field (f7 rest : List Char) (hrest : rest = [] ∨ rest.head? = some '\t') :
    ∃ rest1, (rest1 = [] ∨ rest1.head? = some '\t') ∧ cstr (f7 ++ rest) = cstr f7 ++ rest1 := by
  rw [cstr_append]
  by_cases hm : '\x00' ∈ f7
  · exact ⟨[], Or.inl rfl, by simp [hm]⟩
  · refine ⟨cstr rest, ?_, by rw [if_neg hm, cstr_eq_self hm]⟩
    rcases hrest with rfl | hp
    · left; rfl
    · right
      cases rest with
      | nil => simp at hp
      | cons c cs =>
        simp only [List.head?_cons, Option.some.injEq] at hp
        subst hp
        rw [cstr_tab]; rfl

theorem dataLine_cstr_eight (f0 f1 f2 f3 f4 f5 f6 f7 rest : List Char)
    (htab : ∀ f ∈ [f0, f1, f2, f3, f4, f5, f6, f7], '\t' ∉ f)
    (hrest : rest = [] ∨ rest.head? = some '\t')
    (hnul : ∀ f ∈ [f0, f1, f2, f3, f4, f5, f6], '\x00' ∉ f) :
    dataLine (cstr (f0 ++ '\t' :: (f1 ++ '\t' :: (f2 ++ '\t' :: (f3 ++ '\t' ::
      (f4 ++ '\t' :: (f5 ++ '\t' :: (f6 ++ '\t' :: (f7 ++ rest)))))))))
      = resultOf f0 f1 f3 f4 f6 f7 := by
  have hj : f0 ++ '\t' :: (f1 ++ '\t' :: (f2 ++ '\t' :: (f3 ++ '\t' ::
      (f4 ++ '\t' :: (f5 ++ '\t' :: (f6 ++ '\t' :: (f7 ++ rest)))))))
      = joinTabs [f0, f1, f2, f3, f4, f5, f6] (f7 ++ rest) := rfl
  obtain ⟨rest1, hr1, e1⟩ := cstr_last_field f7 rest hrest
  have hc : cstr (joinTabs [f0, f1, f2, f3, f4, f5, f6] (f7 ++ rest))
      = f0 ++ '\t' :: (f1 ++ '\t' :: (f2 ++ '\t' :: (f3 ++ '\t' ::
        (f4 ++ '\t' :: (f5 ++ '\t' :: (f6 ++ '\t' :: (cstr f7 ++ rest1))))))) := by
    rw [cstr_joinTabs_noNul _ _ hnul, e1]
    rfl
  have htab2 : ∀ f ∈ [f0, f1, f2, f3, f4, f5, f6, cstr f7], '\t' ∉ f := by
    intro f hf
    simp only [List.mem_cons, List.mem_singleton, List.not_mem_nil, or_false] at hf
    rcases hf with rfl | rfl | rfl | rfl | rfl | rfl | rfl | rfl
    iterate 7 exact htab _ (by simp)
    exact fun hc => htab f7 (by simp) ((cstr_initial f7).subset hc)
  rw [hj, hc]
  unfold resultOf
  cases hv : afValue (cstr f7) with
  | none => exact dataLine_eight_noAF f0 f1 f2 f3 f4 f5 f6 (cstr f7) rest1 htab2 hr1 hv
  | some v => exact dataLine_eight f0 f1 f2 f3 f4 f5 f6 (cstr f7) rest1 v htab2 hr1 hv

theorem dataLine_cstr_nul (f0 f1 f2 f3 f4 f5 f6 tail : List Char)
    (htab : ∀ f ∈ [f0, f1, f2, f3, f4, f5, f6], '\t' ∉ f)
    (h : ∃ f ∈ [f0, f1, f2, f3, f4, f5, f6], '\x00' ∈ f) :
    dataLine (cstr (f0 ++ '\t' :: (f1 ++ '\t' :: (f2 ++ '\t' :: (f3 ++ '\t' ::
      (f4 ++ '\t' :: (f5 ++ '\t' :: (f6 ++ '\t' :: tail))))))))
      = .malformed := by
  have hj : f0 ++ '\t' :: (f1 ++ '\t' :: (f2 ++ '\t' :: (f3 ++ '\t' ::
      (f4 ++ '\t' :: (f5 ++ '\t' :: (f6 ++ '\t' :: tail))))))
      = joinTabs [f0, f1, f2, f3, f4, f5, f6] tail := rfl
  have hc := cstr_joinTabs_nul [f0, f1, f2, f3, f4, f5, f6] tail htab h
  rw [dataLine_malformed_iff, hj]
  simpa using hc

/-! ## The claims -/

/-- C1 (amended): a data line with the columns `f0 .. f7` (and possibly more),
no NUL byte in `f0 .. f6` and `"AF="` in `f7` before any NUL byte has an AF
value `v`, extracted from `f7` up to its first NUL byte (from all of `f7` when
it has none), and the record built from it and written to the output is
exactly `f0 \t f1 \t . \t f3 \t f4 \t . \t f6 \t AF=v \n`. -/
theorem C1_record_shape (env : Env) (f0 f1 f2 f3 f4 f5 f6 f7 rest line : List Char)
    (hline : line = f0 ++ '\t' :: (f1 ++ '\t' :: (f2 ++ '\t' :: (f3 ++ '\t' ::
      (f4 ++ '\t' :: (f5 ++ '\t' :: (f6 ++ '\t' :: (f7 ++ rest))))))))
    (htab : ∀ f ∈ [f0, f1, f2, f3, f4, f5, f6, f7], '\t' ∉ f)
    (hrest : rest = [] ∨ rest.head? = some '\t')
    (hdata : line.head? ≠ some '#')
    (hnul : ∀ f ∈ [f0, f1, f2, f3, f4, f5, f6], '\x00' ∉ f)
    (haf : afTag <:+: cstr f7)
    (hop : env.Opens) (hok : env.NoFailure) :
    ∃ v, afValue (cstr f7) = some v ∧ ('\x00' ∉ f7 → afValue f7 = some v) ∧
      dataLine (cstr line) = .record
        (f0 ++ "\t".toList ++ f1 ++ "\t.\t".toList ++ f3 ++ "\t".toList ++ f4 ++ "\t.\t".toList
          ++ f6 ++ "\tAF=".toList ++ v ++ "\n".toList) ∧
      (main env [.line line]).2.out =
        f0 ++ "\t".toList ++ f1 ++ "\t.\t".toList ++ f3 ++ "\t".toList ++ f4 ++ "\t.\t".toList
          ++ f6 ++ "\tAF=".toList ++ v ++ "\n".toList := by
  obtain ⟨v, hv⟩ := afValue_isSome haf
  have hne : line ≠ [] := by
    intro e
    have := congrArg List.length (hline.symm.trans e)
    simp at this
  have hrec : dataLine (cstr line) = .record (expectedRecord f0 f1 f3 f4 f6 v) := by
    rw [hline, dataLine_cstr_eight f0 f1 f2 f3 f4 f5 f6 f7 rest htab hrest hnul]
    simp [resultOf, hv]
  refine ⟨v, hv, ?_, hrec, ?_⟩
  · intro h7
    rw [← cstr_eq_self h7]
    exact hv
  · have h := runOut_eq hop hok [line] (by simpa using hne)
    simp only [runOut, List.map_cons, List.map_nil] at h
    rw [h]
    simp [lineOut, hdata, hrec, expectedRecord]

theorem C1_witness :
    (main okEnv [.line "chr1\t100\trsX\tA\tG\t30\tPASS\tAF=0.2;DP=5".toList]).2.out
      = "chr1\t100\t.\tA\tG\t.\tPASS\tAF=0.2\n".toList := by
  obtain ⟨v, hv, _, _, h⟩ := C1_record_shape okEnv "chr1".toList "100".toList "rsX".toList
    "A".toList "G".toList "30".toList "PASS".toList "AF=0.2;DP=5".toList []
    "chr1\t100\trsX\tA\tG\t30\tPASS\tAF=0.2;DP=5".toList
    (by decide) (by decide) (by decide) (by decide) (by decide) (by decide)
    okEnv_opens okEnv_noFailure
  have e : afValue (cstr "AF=0.2;DP=5".toList) = some "0.2".toList := by decide
  rw [e] at hv
  cases hv
  exact h

theorem C1_counterexample :
    ¬ ∀ (env : Env) (f0 f1 f2 f3 f4 f5 f6 f7 rest line : List Char),
      line = f0 ++ '\t' :: (f1 ++ '\t' :: (f2 ++ '\t' :: (f3 ++ '\t' ::
        (f4 ++ '\t' :: (f5 ++ '\t' :: (f6 ++ '\t' :: (f7 ++ rest))))))) →
      (∀ f ∈ [f0, f1, f2, f3, f4, f5, f6, f7], '\t' ∉ f) →
      (rest = [] ∨ rest.head? = some '\t') →
      line.head? ≠ some '#' → afTag <:+: f7 → env.Opens → env.NoFailure →
      ∃ v, afValue f7 = some v ∧
        (main env [.line line]).2.out =
          f0 ++ "\t".toList ++ f1 ++ "\t.\t".toList ++ f3 ++ "\t".toList ++ f4
            ++ "\t.\t".toList ++ f6 ++ "\tAF=".toList ++ v ++ "\n".toList := by
  intro h
  obtain ⟨v, _, hout⟩ := h okEnv "chr\x001".toList "100".toList "rsX".toList
    "A".toList "G".toList "30".toList "PASS".toList "AF=0.2;DP=5".toList []
    "chr\x001\t100\trsX\tA\tG\t30\tPASS\tAF=0.2;DP=5".toList
    (by decide) (by decide) (by decide) (by decide) (by decide)
    okEnv_opens okEnv_noFailure
  have e : (main okEnv [.line "chr\x001\t100\trsX\tA\tG\t30\tPASS\tAF=0.2;DP=5".toList]).2.out
      = [] := by decide
  rw [e] at hout
  have := congrArg List.length hout
  simp at this


/-- C2: an INFO field that contains `"AF="` splits as
`pre ++ "AF=" ++ v ++ post` where `"AF="` does not occur before the end of
`pre ++ "AF"` (first occurrence), `v` has no `;` and `post` is empty or starts
with `;`, and the extracted value is `v` verbatim; for every such split of the
field the extracted value is its `v`. -/
theorem C2_afValue_first_occurrence (info : List Char) (h : afTag <:+: info) :
    (∃ pre v post, info = pre ++ afTag ++ v ++ post ∧ ¬ afTag <:+: pre ++ ['A', 'F'] ∧
        ';' ∉ v ∧ (post = [] ∨ post.head? = some ';') ∧ afValue info = some v) ∧
    (∀ pre v post, info = pre ++ afTag ++ v ++ post → ¬ afTag <:+: pre ++ ['A', 'F'] →
        ';' ∉ v → (post = [] ∨ post.head? = some ';') → afValue info = some v) := by
  constructor
  · cases hs : strstr info afTag with
    | none => exact absurd h (strstr_none info hs)
    | some suf =>
      obtain ⟨pre, rest, e1, _, e3⟩ := strstr_some (by decide) info suf hs
      obtain ⟨v, post, e, hv, hp⟩ := span_semicolon rest
      rw [afTag_dropLast] at e3
      refine ⟨pre, v, post, by rw [e1, e, List.append_assoc, List.append_assoc, List.append_assoc], e3, hv, hp, ?_⟩
      rw [e1, e, ← List.append_assoc]
      exact afValue_decomp pre v post e3 hv hp
  · intro pre v post e h1 h2 h3
    rw [e]
    exact afValue_decomp pre v post h1 h2 h3

theorem C2_witness :
    afValue "NS=3;AF=0.5;DP=14".toList = some "0.5".toList ∧
    afValue "NS=3;DP=14;AF=0.333".toList = some "0.333".toList :=
  ⟨(C2_afValue_first_occurrence "NS=3;AF=0.5;DP=14".toList (by decide)).2
      "NS=3;".toList "0.5".toList ";DP=14".toList (by decide) (by decide) (by decide) (by decide),
   (C2_afValue_first_occurrence "NS=3;DP=14;AF=0.333".toList (by decide)).2
      "NS=3;DP=14;".toList "0.333".toList [] (by decide) (by decide) (by decide) (by decide)⟩

/-- C3: in a run on non-empty lines in which nothing fails, a header line `h`
(first byte `#`) at any position contributes exactly its own bytes and one
newline, between the output of the lines before it and the output of the
lines after it. -/
theorem C3_header_pass_through (env : Env) (hop : env.Opens) (hok : env.NoFailure)
    (before after : List (List Char)) (h : List Char)
    (hne : ∀ l ∈ before ++ h :: after, l ≠ [])
    (hh : h.head? = some '#') :
    runOut env (before ++ h :: after)
      = runOut env before ++ (h ++ "\n".toList) ++ runOut env after := by
  have hb : ∀ l ∈ before, l ≠ [] := fun l hl => hne l (by simp [hl])
  have ha : ∀ l ∈ after, l ≠ [] := fun l hl => hne l (by simp [hl])
  rw [runOut_eq hop hok _ hne, runOut_eq hop hok _ hb, runOut_eq hop hok _ ha]
  have e : "\n".toList = ['\n'] := rfl
  simp [lineOut, hh, e]

theorem C3_witness :
    runOut okEnv ["##fileformat=VCFv4.2".toList, "1\t5\tx\tA\tC\t9\tPASS\tAF=0.1".toList,
        "#CHROM\tPOS".toList, "1\t7\ty\tG\tT\t9\tPASS\tDP=3".toList]
      = runOut okEnv ["##fileformat=VCFv4.2".toList, "1\t5\tx\tA\tC\t9\tPASS\tAF=0.1".toList]
        ++ ("#CHROM\tPOS".toList ++ "\n".toList)
        ++ runOut okEnv ["1\t7\ty\tG\tT\t9\tPASS\tDP=3".toList] :=
  C3_header_pass_through okEnv okEnv_opens okEnv_noFailure
    ["##fileformat=VCFv4.2".toList, "1\t5\tx\tA\tC\t9\tPASS\tAF=0.1".toList]
    ["1\t7\ty\tG\tT\t9\tPASS\tDP=3".toList] "#CHROM\tPOS".toList (by decide) (by decide)

/-- C4: a non-empty data line with fewer than 7 tab characters fails the
column check; when its `strdup` succeeds the iteration writes nothing, prints
nothing and goes on to the next line, and in a run in which nothing fails the
output is the output of the run without that line, with exit status 0. -/
theorem C4_short_line_skipped (line : List Char) (hne : line ≠ [])
    (hdata : line.head? ≠ some '#') (htabs : line.count '\t' < 7) :
    dataLine (cstr line) = .malformed ∧
    (∀ (env : Env) (w : World), env.dupOk w.ndup = true →
      step env w (.line line) = .next { w with nread := w.nread + 1, ndup := w.ndup + 1 }) ∧
    (∀ (env : Env) (before after : List (List Char)), env.Opens → env.NoFailure →
      (∀ l ∈ before ++ after, l ≠ []) →
      runOut env (before ++ line :: after) = runOut env (before ++ after) ∧
      (main env ((before ++ line :: after).map ReadResult.line)).1 = 0) := by
  have hm := dataLine_few_tabs htabs
  refine ⟨hm, ?_, ?_⟩
  · intro env w hd
    rw [step_line hne]
    simp [body, hdata, strdup, hd, hm]
  · intro env before after hop hok hl
    have hl2 : ∀ l ∈ before ++ line :: after, l ≠ [] := by
      intro l h
      simp only [List.mem_append, List.mem_cons] at h
      rcases h with h | rfl | h
      · exact hl l (by simp [h])
      · exact hne
      · exact hl l (by simp [h])
    refine ⟨?_, (main_noFailure hop hok _ hl2).1⟩
    rw [runOut_eq hop hok _ hl2, runOut_eq hop hok _ hl]
    simp [lineOut, hdata, hm]

theorem C4_witness :
    runOut okEnv ["#h".toList, "1\t5\tx\tA\tC\t9\tAF=0.1".toList, "#t".toList]
      = runOut okEnv ["#h".toList, "#t".toList] :=
  ((C4_short_line_skipped "1\t5\tx\tA\tC\t9\tAF=0.1".toList (by decide) (by decide)
    (by decide)).2.2 okEnv ["#h".toList] ["#t".toList] okEnv_opens okEnv_noFailure
    (by decide)).1

/-- C5: a data line with the columns `f0 .. f7` (and possibly more) whose
column `f7` does not contain `"AF="` gives no record, whatever the other
columns hold: when its `strdup` succeeds the iteration writes nothing, prints
nothing and goes on to the next line, and in a run in which nothing fails the
output is the output of the run without that line. -/
theorem C5_missing_af_skipped (f0 f1 f2 f3 f4 f5 f6 f7 rest line : List Char)
    (hline : line = f0 ++ '\t' :: (f1 ++ '\t' :: (f2 ++ '\t' :: (f3 ++ '\t' ::
      (f4 ++ '\t' :: (f5 ++ '\t' :: (f6 ++ '\t' :: (f7 ++ rest))))))))
    (htab : ∀ f ∈ [f0, f1, f2, f3, f4, f5, f6, f7], '\t' ∉ f)
    (hrest : rest = [] ∨ rest.head? = some '\t')
    (hdata : line.head? ≠ some '#')
    (hno : ¬ afTag <:+: f7) :
    (∀ bytes, dataLine (cstr line) ≠ .record bytes) ∧
    ('\x00' ∉ line → dataLine (cstr line) = .noAF) ∧
    (∀ (env : Env) (w : World), env.dupOk w.ndup = true →
      step env w (.line line) = .next { w with nread := w.nread + 1, ndup := w.ndup + 1 }) ∧
    (∀ (env : Env) (before after : List (List Char)), env.Opens → env.NoFailure →
      (∀ l ∈ before ++ after, l ≠ []) →
      runOut env (before ++ line :: after) = runOut env (before ++ after)) := by
  have hne : line ≠ [] := by
    intro e
    have := congrArg List.length (hline.symm.trans e)
    simp at this
  have hcases := dataLine_cstr_noAF f0 f1 f2 f3 f4 f5 f6 f7 rest htab hrest hno
  rw [← hline] at hcases
  refine ⟨?_, ?_, ?_, ?_⟩
  · intro bytes hb
    rcases hcases with h | h <;> rw [h] at hb <;> cases hb
  · intro hnul
    rw [cstr_eq_self hnul, hline]
    exact dataLine_eight_noAF f0 f1 f2 f3 f4 f5 f6 f7 rest htab hrest (afValue_none hno)
  · intro env w hd
    rw [step_line hne]
    rcases hcases with h | h <;> simp [body, hdata, strdup, hd, h]
  · intro env before after hop hok hl
    have hl2 : ∀ l ∈ before ++ line :: after, l ≠ [] := by
      intro l h
      simp only [List.mem_append, List.mem_cons] at h
      rcases h with h | rfl | h
      · exact hl l (by simp [h])
      · exact hne
      · exact hl l (by simp [h])
    rw [runOut_eq hop hok _ hl2, runOut_eq hop hok _ hl]
    rcases hcases with h | h <;> simp [lineOut, hdata, h]

theorem C5_witness :
    runOut okEnv ["#h".toList, "1\t5\tx\tA\tC\t9\tPASS\tDP=3\tAF=0.4".toList, "#t".toList]
      = runOut okEnv ["#h".toList, "#t".toList] :=
  (C5_missing_af_skipped "1".toList "5".toList "x".toList "A".toList "C".toList "9".toList
    "PASS".toList "DP=3".toList "\tAF=0.4".toList "1\t5\tx\tA\tC\t9\tPASS\tDP=3\tAF=0.4".toList
    (by decide) (by decide) (by decide) (by decide) (by decide)).2.2.2
    okEnv ["#h".toList] ["#t".toList] okEnv_opens okEnv_noFailure (by decide)

/-- C6: in a run in which nothing fails, the output for the non-empty lines
`xs` followed by `ys` is the output for `xs` followed by the output for `ys`;
the output for `xs` is the concatenation, in input order, of what each line
gives alone, which is its header copy, its one record or nothing; the exit
status is 0. -/
theorem C6_no_cross_record_state (env : Env) (hop : env.Opens) (hok : env.NoFailure)
    (xs ys : List (List Char)) (hx : ∀ l ∈ xs, l ≠ []) (hy : ∀ l ∈ ys, l ≠ []) :
    runOut env (xs ++ ys) = runOut env xs ++ runOut env ys ∧
    runOut env xs = (xs.map (fun l => runOut env [l])).flatten ∧
    (∀ l ∈ xs, runOut env [l] =
      if l.head? = some '#' then l ++ "\n".toList
      else
        match dataLine (cstr l) with
        | .record bytes => bytes
        | _ => []) ∧
    (main env ((xs ++ ys).map ReadResult.line)).1 = 0 := by
  have hxy : ∀ l ∈ xs ++ ys, l ≠ [] := by
    intro l h
    rcases List.mem_append.mp h with h | h
    · exact hx l h
    · exact hy l h
  have h1 : ∀ l ∈ xs, runOut env [l] = lineOut l := by
    intro l hl
    rw [runOut_eq hop hok [l] (by simpa using hx l hl)]
    simp
  refine ⟨?_, ?_, ?_, (main_noFailure hop hok _ hxy).1⟩
  · rw [runOut_eq hop hok _ hxy, runOut_eq hop hok _ hx, runOut_eq hop hok _ hy]
    simp
  · rw [runOut_eq hop hok _ hx]
    congr 1
    exact List.map_congr_left (fun l hl => (h1 l hl).symm)
  · intro l hl
    rw [h1 l hl]
    rfl

theorem C6_witness :
    (runOut okEnv (["#CHROM\tPOS".toList] ++
        ["1\t5\tx\tA\tC\t9\tPASS\tNS=2;AF=0.1".toList, "1\t7\ty\tG\tT\t9\tPASS\tDP=3".toList])
      = runOut okEnv ["#CHROM\tPOS".toList] ++
        runOut okEnv ["1\t5\tx\tA\tC\t9\tPASS\tNS=2;AF=0.1".toList,
          "1\t7\ty\tG\tT\t9\tPASS\tDP=3".toList] ∧
     (main okEnv ((["#CHROM\tPOS".toList] ++
        ["1\t5\tx\tA\tC\t9\tPASS\tNS=2;AF=0.1".toList,
          "1\t7\ty\tG\tT\t9\tPASS\tDP=3".toList]).map ReadResult.line)).1 = 0) ∧
    runOut okEnv ["#CHROM\tPOS".toList, "1\t5\tx\tA\tC\t9\tPASS\tNS=2;AF=0.1".toList,
        "1\t7\ty\tG\tT\t9\tPASS\tDP=3".toList]
      = "#CHROM\tPOS\n1\t5\t.\tA\tC\t.\tPASS\tAF=0.1\n".toList :=
  ⟨⟨(C6_no_cross_record_state okEnv okEnv_opens okEnv_noFailure ["#CHROM\tPOS".toList]
      ["1\t5\tx\tA\tC\t9\tPASS\tNS=2;AF=0.1".toList, "1\t7\ty\tG\tT\t9\tPASS\tDP=3".toList]
      (by decide) (by decide)).1,
    (C6_no_cross_record_state okEnv okEnv_opens okEnv_noFailure ["#CHROM\tPOS".toList]
      ["1\t5\tx\tA\tC\t9\tPASS\tNS=2;AF=0.1".toList, "1\t7\ty\tG\tT\t9\tPASS\tDP=3".toList]
      (by decide) (by decide)).2.2.2⟩, by decide⟩

/-- C7: when the loop reaches the read result `r` at position `k` (after the
`k` results `before`) and a call `j` of `bgzf_write` made for it fails, the run
ends in the state in which that iteration ends: `bgzf_getline` was called
`k + 1` times, the failed call is the last call of `bgzf_write`, the output
holds what it held before the iteration (and the bytes of the header line when
only the write of its newline failed), and the results after `r` play no part. -/
theorem C7_write_failure_stops (env : Env) (hop : env.Opens)
    (before after : List ReadResult) (r : ReadResult) (w : World) (j : Nat)
    (hreach : feed env before World.start = .next w)
    (hj1 : w.nwrite ≤ j) (hj2 : j < (step env w r).world.nwrite)
    (hfail : env.writeOk j = false) :
    (main env (before ++ r :: after)).2.nread = before.length + 1 ∧
    (main env (before ++ r :: after)).2.nwrite = j + 1 ∧
    (main env (before ++ r :: after)).2.out = (step env w r).world.out ∧
    ((step env w r).world.out = w.out ∨
      ∃ s, r = .line s ∧ s.head? = some '#' ∧ j = w.nwrite + 1 ∧
        (step env w r).world.out = w.out ++ s) ∧
    main env (before ++ r :: after) = main env (before ++ [r]) := by
  obtain ⟨ha, hi, ho⟩ := hop
  obtain ⟨⟨w1, hstop⟩, hn, hout⟩ := step_write_fail env w r j hj1 hj2 hfail
  have hl : ∀ rest, loop env (before ++ r :: rest) World.start = w1 := by
    intro rest
    simp only [loop, feed_append, hreach, feed, hstop]
  have hm : ∀ rest, main env (before ++ r :: rest) =
      (0, { w1 with stdout := w1.stdout ++ [summary (env.argv.getD 1 []) (env.argv.getD 2 [])],
                    inClosed := true, outClosed := true }) := by
    intro rest
    simp only [main, ha, hi, ho, hl rest]
    simp
  have hr1 := step_nread env w r
  have hr2 := feed_nread env before World.start w hreach
  rw [hstop] at hn hr1 hout ⊢
  simp only [Ctl.world] at hn hr1 hout ⊢
  refine ⟨?_, ?_, ?_, hout, ?_⟩
  · rw [hm after]
    simp only [hr1, hr2]
    simp [World.start, World.init]
  · rw [hm after]
    exact hn
  · rw [hm after]
  · rw [hm after, hm []]

theorem C7_witness :
    (main (failEnv 3) (["#CHROM\tPOS".toList, "1\t5\tx\tA\tC\t9\tPASS\tAF=0.1".toList].map
        ReadResult.line ++ ReadResult.line "1\t7\ty\tG\tT\t9\tPASS\tAF=0.2".toList ::
        [ReadResult.line "1\t9\tz\tG\tA\t9\tPASS\tAF=0.3".toList])).2.nread = 2 + 1 ∧
    (main (failEnv 3) (["#CHROM\tPOS".toList, "1\t5\tx\tA\tC\t9\tPASS\tAF=0.1".toList].map
        ReadResult.line ++ ReadResult.line "1\t7\ty\tG\tT\t9\tPASS\tAF=0.2".toList ::
        [ReadResult.line "1\t9\tz\tG\tA\t9\tPASS\tAF=0.3".toList])).2.nwrite = 3 + 1 :=
  have h := C7_write_failure_stops (failEnv 3) ⟨rfl, rfl, rfl⟩
    (["#CHROM\tPOS".toList, "1\t5\tx\tA\tC\t9\tPASS\tAF=0.1".toList].map ReadResult.line)
    [ReadResult.line "1\t9\tz\tG\tA\t9\tPASS\tAF=0.3".toList]
    (ReadResult.line "1\t7\ty\tG\tT\t9\tPASS\tAF=0.2".toList)
    (feed (failEnv 3) (["#CHROM\tPOS".toList, "1\t5\tx\tA\tC\t9\tPASS\tAF=0.1".toList].map
      ReadResult.line) World.start).world 3 (by rfl) (by decide) (by decide) (by rfl)
  ⟨h.1, h.2.1⟩

/-- C8: the exit status is 1 when the argument count is not 3 and when the
input or the output file cannot be opened, and it is 0 in every other run,
also when a write fails: in the run on the header line `#h` whose first write
fails the diagnostic of the header write is printed, the summary is printed
and the exit status is 0, where the claim has 1. -/
theorem C8_exit_status :
    (∀ (env : Env) (rs : List ReadResult), env.argv.length ≠ 3 → (main env rs).1 = 1) ∧
    (∀ (env : Env) (rs : List ReadResult), env.argv.length = 3 → env.inOpens = false →
      (main env rs).1 = 1) ∧
    (∀ (env : Env) (rs : List ReadResult), env.argv.length = 3 → env.inOpens = true →
      env.outOpens = false → (main env rs).1 = 1) ∧
    (∀ (env : Env) (rs : List ReadResult), env.Opens → (main env rs).1 = 0) ∧
    (failEnv 0).writeOk 0 = false ∧
    (main (failEnv 0) [.line "#h".toList]).1 = 0 ∧
    (main (failEnv 0) [.line "#h".toList]).2.err = [Diag.writeHeader] ∧
    (main (failEnv 0) [.line "#h".toList]).2.out = [] ∧
    (main (failEnv 0) [.line "#h".toList]).2.stdout
      = ["Processed in.vcf.bgz -> out.vcf.bgz\n"] := by
  refine ⟨?_, ?_, ?_, ?_, rfl, rfl, rfl, rfl, by decide⟩
  · intro env rs h
    simp [main, h]
  · intro env rs h1 h2
    simp [main, h1, h2]
  · intro env rs h1 h2 h3
    simp [main, h1, h2, h3]
  · intro env rs h
    obtain ⟨h1, h2, h3⟩ := h
    simp [main, h1, h2, h3]

theorem C8_witness :
    (main (failEnv 0) [.line "#h".toList]).1 = 0 :=
  C8_exit_status.2.2.2.1 (failEnv 0) [.line "#h".toList] ⟨rfl, rfl, rfl⟩

/-- C9: an empty line ends the run as end of file does: the line reader
returns 0, the test `> 0` of the loop fails, and the read results after the
empty line play no part. In the run on `#a`, the empty line and `#b` the
output is `#a` and a newline only, where the claim has the line `#b` in the
output too. -/
theorem C9_empty_line_ends_run :
    (∀ (env : Env) (before after : List ReadResult),
      main env (before ++ .line [] :: after) = main env before) ∧
    runOut okEnv ["#a".toList, [], "#b".toList] = "#a\n".toList ∧
    runOut okEnv ["#a".toList, "#b".toList] = "#a\n#b\n".toList ∧
    (main okEnv [.line "#a".toList, .line [], .line "#b".toList]).1 = 0 ∧
    (main okEnv [.line "#a".toList, .line [], .line "#b".toList]).2.nread = 2 ∧
    (main okEnv [.line "#a".toList, .line [], .line "#b".toList]).2.err = [] := by
  refine ⟨?_, by decide, by decide, rfl, rfl, rfl⟩
  intro env before after
  have h : loop env (before ++ .line [] :: after) World.start = loop env before World.start := by
    simp only [loop, feed_append]
    cases feed env before World.start with
    | next w => simp [feed, step, ReadResult.status]
    | stop w => rfl
  simp only [main, h]

/-- C10: a read error ends the run as end of file does: the return value is
negative, the test `> 0` of the loop fails, nothing is printed to `stderr` for
it, and the run ends with the summary and exit status 0. In the run on `#a`
followed by a read error the diagnostics are empty, the summary is printed and
the exit status is 0, where the claim has a diagnostic and no success. -/
theorem C10_read_error_ends_run :
    (∀ (env : Env) (before after : List ReadResult) (n : Nat),
      main env (before ++ .error n :: after) = main env before) ∧
    (∀ n : Nat, (ReadResult.error n).status ≤ -2) ∧
    (main okEnv [.line "#a".toList, .error 0]).1 = 0 ∧
    (main okEnv [.line "#a".toList, .error 0]).2.err = [] ∧
    (main okEnv [.line "#a".toList, .error 0]).2.out = "#a\n".toList ∧
    (main okEnv [.line "#a".toList, .error 0]).2.stdout
      = ["Processed in.vcf.bgz -> out.vcf.bgz\n"] := by
  refine ⟨?_, ?_, rfl, rfl, by decide, by decide⟩
  · intro env before after n
    have hs : ¬ (0 : Int) < (ReadResult.error n).status := by
      simp only [ReadResult.status]; omega
    have h : loop env (before ++ .error n :: after) World.start = loop env before World.start := by
      simp only [loop, feed_append]
      cases feed env before World.start with
      | next w => simp [feed, step, hs]
      | stop w => rfl
    simp only [main, h]
  · intro n
    simp only [ReadResult.status]; omega

/-- C11: with two arguments, when the input file cannot be opened the run
ends with exit status 1 and the diagnostic of the input file, and nothing
else happened: no file was opened, no line read, no write made; when the input
file opens and the output file does not, the run ends with exit status 1 and
the diagnostic of the output file, the input file was closed, no line was
read and no write made. -/
theorem C11_open_failures (env : Env) (rs : List ReadResult) (hargc : env.argv.length = 3) :
    (env.inOpens = false →
      (main env rs).1 = 1 ∧
      (main env rs).2.err = [Diag.openInput (env.argv.getD 1 [])] ∧
      (main env rs).2.nread = 0 ∧ (main env rs).2.nwrite = 0 ∧ (main env rs).2.out = [] ∧
      (main env rs).2.stdout = [] ∧
      (main env rs).2.inOpened = false ∧ (main env rs).2.outOpened = false) ∧
    (env.inOpens = true → env.outOpens = false →
      (main env rs).1 = 1 ∧
      (main env rs).2.err = [Diag.openOutput (env.argv.getD 2 [])] ∧
      (main env rs).2.nread = 0 ∧ (main env rs).2.nwrite = 0 ∧ (main env rs).2.out = [] ∧
      (main env rs).2.stdout = [] ∧
      (main env rs).2.inOpened = true ∧ (main env rs).2.inClosed = true ∧
      (main env rs).2.outOpened = false) ∧
    (∀ path, (Diag.openInput path).text
      = "Error: Could not open input file " ++ String.mk path ++ "\n") ∧
    (∀ path, (Diag.openOutput path).text
      = "Error: Could not open output file " ++ String.mk path ++ "\n") := by
  refine ⟨?_, ?_, fun _ => rfl, fun _ => rfl⟩
  · intro hi
    simp [main, hargc, hi, World.init]
  · intro hi ho
    simp [main, hargc, hi, ho, World.init]

theorem C11_witness :
    (main { okEnv with inOpens := false } [.line "#h".toList]).1 = 1 ∧
    (main { okEnv with inOpens := false } [.line "#h".toList]).2.err
      = [Diag.openInput "in.vcf.bgz".toList] ∧
    (main { okEnv with outOpens := false } [.line "#h".toList]).1 = 1 ∧
    (main { okEnv with outOpens := false } [.line "#h".toList]).2.err
      = [Diag.openOutput "out.vcf.bgz".toList] ∧
    (main { okEnv with outOpens := false } [.line "#h".toList]).2.inClosed = true :=
  have h1 := (C11_open_failures { okEnv with inOpens := false } [.line "#h".toList] rfl).1 rfl
  have h2 := (C11_open_failures { okEnv with outOpens := false } [.line "#h".toList]
    rfl).2.1 rfl rfl
  ⟨h1.1, h1.2.1, h2.1, h2.2.1, h2.2.2.2.2.2.2.2.1⟩

/-- C12 (amended): a record has eight tab-separated components, not six:
the columns `f0` and `f1` of the line, a placeholder `.`, the columns `f3` and
`f4`, a second placeholder `.`, the column `f6`, and `AF=` followed by the AF
value `v` of the column `f7`; one newline ends it. -/
theorem C12_record_components (line_copy bytes : List Char)
    (h : dataLine line_copy = .record bytes) :
    ∃ f0 f1 f3 f4 f6 v,
      (∃ f2 f5 f7, splitFields 8 (some line_copy) = [f0, f1, f2, f3, f4, f5, f6, f7] ∧
        afValue f7 = some v) ∧
      bytes = f0 ++ "\t".toList ++ f1 ++ "\t.\t".toList ++ f3 ++ "\t".toList ++ f4
        ++ "\t.\t".toList ++ f6 ++ "\tAF=".toList ++ v ++ "\n".toList ∧
      bytes.dropLast.splitOn '\t'
        = [f0, f1, ".".toList, f3, f4, ".".toList, f6, "AF=".toList ++ v] ∧
      (bytes.dropLast.splitOn '\t').length = 8 ∧
      bytes.getLast? = some '\n' := by
  obtain ⟨f0, f1, f2, f3, f4, f5, f6, f7, rest, v, e, htab, hrest, hv, hb⟩ :=
    dataLine_record_inv h
  refine ⟨f0, f1, f3, f4, f6, v, ⟨f2, f5, f7, ?_, hv⟩, hb, ?_⟩
  · rw [e]
    exact splitFields_eight f0 f1 f2 f3 f4 f5 f6 f7 rest htab hrest
  · have hd : bytes.dropLast = joinTabs [f0, f1, ['.'], f3, f4, ['.'], f6] (afTag ++ v) := by
      rw [hb, expectedRecord_eq_joinTabs, List.dropLast_concat]
    have hs : bytes.dropLast.splitOn '\t'
        = [f0, f1, ['.'], f3, f4, ['.'], f6] ++ [afTag ++ v] := by
      rw [hd]
      apply splitOn_joinTabs
      · intro g hg
        simp only [List.mem_cons, List.mem_singleton, List.not_mem_nil, or_false] at hg
        rcases hg with rfl | rfl | rfl | rfl | rfl | rfl | rfl
        · exact htab _ (by simp)
        · exact htab _ (by simp)
        · decide
        · exact htab _ (by simp)
        · exact htab _ (by simp)
        · decide
        · exact htab _ (by simp)
      · intro hc
        rcases List.mem_append.mp hc with hc | hc
        · revert hc; decide
        · exact htab f7 (by simp) (afValue_sub hv hc)
    refine ⟨hs, ?_, ?_⟩
    · rw [hs]; rfl
    · rw [hb, expectedRecord_eq_joinTabs]
      simp

theorem C12_witness :
    ∃ f0 f1 f3 f4 f6 v,
      (∃ f2 f5 f7, splitFields 8 (some "chr1\t100\trsX\tA\tG\t30\tPASS\tAF=0.2;DP=5".toList)
          = [f0, f1, f2, f3, f4, f5, f6, f7] ∧ afValue f7 = some v) ∧
      "chr1\t100\t.\tA\tG\t.\tPASS\tAF=0.2\n".toList
        = f0 ++ "\t".toList ++ f1 ++ "\t.\t".toList ++ f3 ++ "\t".toList ++ f4
          ++ "\t.\t".toList ++ f6 ++ "\tAF=".toList ++ v ++ "\n".toList ∧
      "chr1\t100\t.\tA\tG\t.\tPASS\tAF=0.2\n".toList.dropLast.splitOn '\t'
        = [f0, f1, ".".toList, f3, f4, ".".toList, f6, "AF=".toList ++ v] ∧
      ("chr1\t100\t.\tA\tG\t.\tPASS\tAF=0.2\n".toList.dropLast.splitOn '\t').length = 8 ∧
      "chr1\t100\t.\tA\tG\t.\tPASS\tAF=0.2\n".toList.getLast? = some '\n' :=
  C12_record_components "chr1\t100\trsX\tA\tG\t30\tPASS\tAF=0.2;DP=5".toList
    "chr1\t100\t.\tA\tG\t.\tPASS\tAF=0.2\n".toList (by decide)

theorem C12_counterexample :
    ¬ ∀ (line_copy bytes : List Char), dataLine line_copy = .record bytes →
      (bytes.dropLast.splitOn '\t').length = 6 := by
  intro h
  have h1 := h "chr1\t100\trsX\tA\tG\t30\tPASS\tAF=0.2;DP=5".toList
    "chr1\t100\t.\tA\tG\t.\tPASS\tAF=0.2\n".toList (by decide)
  revert h1
  decide

/-- C13: the split loop stores the first 8 pieces of the split of the line on
every tab; a line is accepted exactly when it has at least 7 tabs, and then
the stored fields are the texts between the tabs (the 8th up to the 8th tab
or the end); two tabs in a row give an empty field and blanks are kept. -/
theorem C13_splitter_is_splitOn (line : List Char) :
    splitFields 8 (some line) = (line.splitOn '\t').take 8 ∧
    (¬ (splitFields 8 (some line)).length < 8 ↔ 7 ≤ line.count '\t') ∧
    (dataLine line = .malformed ↔ line.count '\t' < 7) ∧
    ('\x00' ∉ line →
      (dataLine (cstr line) = .malformed ↔ line.count '\t' < 7)) ∧
    (7 ≤ line.count '\t' →
      ∃ f0 f1 f2 f3 f4 f5 f6 f7 rest,
        line = f0 ++ '\t' :: (f1 ++ '\t' :: (f2 ++ '\t' :: (f3 ++ '\t' ::
          (f4 ++ '\t' :: (f5 ++ '\t' :: (f6 ++ '\t' :: (f7 ++ rest))))))) ∧
        (∀ f ∈ [f0, f1, f2, f3, f4, f5, f6, f7], '\t' ∉ f) ∧
        (rest = [] ∨ rest.head? = some '\t') ∧
        splitFields 8 (some line) = [f0, f1, f2, f3, f4, f5, f6, f7]) ∧
    (∀ f0 f1 f2 f3 f4 f5 f6 f7 rest : List Char,
      line = f0 ++ '\t' :: (f1 ++ '\t' :: (f2 ++ '\t' :: (f3 ++ '\t' ::
        (f4 ++ '\t' :: (f5 ++ '\t' :: (f6 ++ '\t' :: (f7 ++ rest))))))) →
      (∀ f ∈ [f0, f1, f2, f3, f4, f5, f6, f7], '\t' ∉ f) →
      (rest = [] ∨ rest.head? = some '\t') →
      splitFields 8 (some line) = [f0, f1, f2, f3, f4, f5, f6, f7]) ∧
    splitFields 8 (some "\t\t\t\t\t\t\t".toList) = [[], [], [], [], [], [], [], []] ∧
    splitFields 8 (some " a \t\tb \t3\t4\t5\t6\t c\td".toList)
      = [" a ".toList, [], "b ".toList, "3".toList, "4".toList, "5".toList, "6".toList,
          " c".toList] := by
  have hlen := splitFields_length 8 line
  refine ⟨splitFields_eq_splitOn 8 line, by omega, dataLine_malformed_iff line,
    ?_, ?_, ?_, by decide, by decide⟩
  · intro hnul
    rw [cstr_eq_self hnul]
    exact dataLine_malformed_iff line
  · intro h
    have hl : ¬ (splitFields 8 (some line)).length < 8 := by omega
    obtain ⟨f0, f1, f2, f3, f4, f5, f6, f7, rest, e, htab, hrest⟩ :=
      splitFields_eight_inv line hl
    refine ⟨f0, f1, f2, f3, f4, f5, f6, f7, rest, e, htab, hrest, ?_⟩
    rw [e]
    exact splitFields_eight f0 f1 f2 f3 f4 f5 f6 f7 rest htab hrest
  · intro f0 f1 f2 f3 f4 f5 f6 f7 rest e htab hrest
    rw [e]
    exact splitFields_eight f0 f1 f2 f3 f4 f5 f6 f7 rest htab hrest

theorem C13_witness :
    splitFields 8 (some "1\t5\tx\tA\tC\t9\tPASS\tAF=0.1\tGT\t0|1".toList)
      = ["1".toList, "5".toList, "x".toList, "A".toList, "C".toList, "9".toList,
          "PASS".toList, "AF=0.1".toList] :=
  (C13_splitter_is_splitOn "1\t5\tx\tA\tC\t9\tPASS\tAF=0.1\tGT\t0|1".toList).2.2.2.2.2.1
    "1".toList "5".toList "x".toList "A".toList "C".toList "9".toList "PASS".toList
    "AF=0.1".toList "\tGT\t0|1".toList (by decide) (by decide) (by decide)

/-- C14 (amended): two data lines that have at least 8 columns, agree on the
columns 0, 1, 3, 4, 6 and 7, and whose columns 2 either both hold a NUL byte
or both hold none, and likewise their columns 5 (so in particular when the
columns 2 and 5 hold no NUL byte), give the same result, whatever else their
columns 2 and 5 and the text after the 8th column hold: the same record or no
record, the same iteration of the loop in every state, the same output. -/
theorem C14_depends_on_six_columns
    (f0 f1 f3 f4 f6 f7 a2 a5 arest b2 b5 brest la lb : List Char)
    (hla : la = f0 ++ '\t' :: (f1 ++ '\t' :: (a2 ++ '\t' :: (f3 ++ '\t' ::
      (f4 ++ '\t' :: (a5 ++ '\t' :: (f6 ++ '\t' :: (f7 ++ arest))))))))
    (hlb : lb = f0 ++ '\t' :: (f1 ++ '\t' :: (b2 ++ '\t' :: (f3 ++ '\t' ::
      (f4 ++ '\t' :: (b5 ++ '\t' :: (f6 ++ '\t' :: (f7 ++ brest))))))))
    (htab : ∀ f ∈ [f0, f1, f3, f4, f6, f7, a2, a5, b2, b5], '\t' ∉ f)
    (harest : arest = [] ∨ arest.head? = some '\t')
    (hbrest : brest = [] ∨ brest.head? = some '\t')
    (hdata : la.head? ≠ some '#')
    (hnul2 : '\x00' ∈ a2 ↔ '\x00' ∈ b2) (hnul5 : '\x00' ∈ a5 ↔ '\x00' ∈ b5) :
    lb.head? ≠ some '#' ∧
    dataLine (cstr la) = dataLine (cstr lb) ∧
    (∀ (env : Env) (w : World), step env w (.line la) = step env w (.line lb)) ∧
    (∀ env : Env, runOut env [la] = runOut env [lb]) := by
  have hta : ∀ f ∈ [f0, f1, a2, f3, f4, a5, f6, f7], '\t' ∉ f := by
    intro f hf
    apply htab
    simp only [List.mem_cons, List.mem_singleton, List.not_mem_nil, or_false] at hf ⊢
    rcases hf with h | h | h | h | h | h | h | h <;> simp [h]
  have htb : ∀ f ∈ [f0, f1, b2, f3, f4, b5, f6, f7], '\t' ∉ f := by
    intro f hf
    apply htab
    simp only [List.mem_cons, List.mem_singleton, List.not_mem_nil, or_false] at hf ⊢
    rcases hf with h | h | h | h | h | h | h | h <;> simp [h]
  have hhead : lb.head? = la.head? := by
    rw [hla, hlb]
    cases f0 <;> rfl
  have hb : lb.head? ≠ some '#' := by rw [hhead]; exact hdata
  have hnea : la ≠ [] := by
    intro e
    have := congrArg List.length (hla.symm.trans e)
    simp at this
  have hneb : lb ≠ [] := by
    intro e
    have := congrArg List.length (hlb.symm.trans e)
    simp at this
  have hd : dataLine (cstr la) = dataLine (cstr lb) := by
    rw [hla, hlb]
    have hta7 : ∀ f ∈ [f0, f1, a2, f3, f4, a5, f6], '\t' ∉ f := by
      intro g hg
      apply hta
      simp only [List.mem_cons, List.mem_singleton, List.not_mem_nil, or_false] at hg ⊢
      rcases hg with h | h | h | h | h | h | h <;> simp [h]
    have htb7 : ∀ f ∈ [f0, f1, b2, f3, f4, b5, f6], '\t' ∉ f := by
      intro g hg
      apply htb
      simp only [List.mem_cons, List.mem_singleton, List.not_mem_nil, or_false] at hg ⊢
      rcases hg with h | h | h | h | h | h | h <;> simp [h]
    by_cases hN : ∃ f ∈ [f0, f1, a2, f3, f4, a5, f6], '\x00' ∈ f
    · have hNb : ∃ f ∈ [f0, f1, b2, f3, f4, b5, f6], '\x00' ∈ f := by
        obtain ⟨f, hf, hn⟩ := hN
        simp only [List.mem_cons, List.mem_singleton, List.not_mem_nil, or_false] at hf
        rcases hf with rfl | rfl | rfl | rfl | rfl | rfl | rfl
        · exact ⟨_, by simp, hn⟩
        · exact ⟨_, by simp, hn⟩
        · exact ⟨b2, by simp, hnul2.mp hn⟩
        · exact ⟨_, by simp, hn⟩
        · exact ⟨_, by simp, hn⟩
        · exact ⟨b5, by simp, hnul5.mp hn⟩
        · exact ⟨_, by simp, hn⟩
      rw [dataLine_cstr_nul f0 f1 a2 f3 f4 a5 f6 (f7 ++ arest) hta7 hN,
        dataLine_cstr_nul f0 f1 b2 f3 f4 b5 f6 (f7 ++ brest) htb7 hNb]
    · have hna : ∀ f ∈ [f0, f1, a2, f3, f4, a5, f6], '\x00' ∉ f :=
        fun f hf hn => hN ⟨f, hf, hn⟩
      have hnb : ∀ f ∈ [f0, f1, b2, f3, f4, b5, f6], '\x00' ∉ f := by
        intro f hf hn
        simp only [List.mem_cons, List.mem_singleton, List.not_mem_nil, or_false] at hf
        rcases hf with rfl | rfl | rfl | rfl | rfl | rfl | rfl
        · exact hN ⟨_, by simp, hn⟩
        · exact hN ⟨_, by simp, hn⟩
        · exact hN ⟨a2, by simp, hnul2.mpr hn⟩
        · exact hN ⟨_, by simp, hn⟩
        · exact hN ⟨_, by simp, hn⟩
        · exact hN ⟨a5, by simp, hnul5.mpr hn⟩
        · exact hN ⟨_, by simp, hn⟩
      rw [dataLine_cstr_eight f0 f1 a2 f3 f4 a5 f6 f7 arest hta harest hna,
        dataLine_cstr_eight f0 f1 b2 f3 f4 b5 f6 f7 brest htb hbrest hnb]
  have hs : ∀ (env : Env) (w : World), step env w (.line la) = step env w (.line lb) := by
    intro env w
    rw [step_line hnea, step_line hneb]
    exact body_congr hdata hb hd
  refine ⟨hb, hd, hs, ?_⟩
  intro env
  simp only [runOut, main, loop, feed, List.map_cons, List.map_nil, hs]

theorem C14_witness :
    runOut okEnv ["1\t5\trs1\tA\tC\t9\tPASS\tAF=0.1".toList]
      = runOut okEnv ["1\t5\t.\tA\tC\t77.5\tPASS\tAF=0.1\tGT\t0|1\x00".toList] :=
  (C14_depends_on_six_columns "1".toList "5".toList "A".toList "C".toList "PASS".toList
    "AF=0.1".toList "rs1".toList "9".toList [] ".".toList "77.5".toList "\tGT\t0|1\x00".toList
    "1\t5\trs1\tA\tC\t9\tPASS\tAF=0.1".toList
    "1\t5\t.\tA\tC\t77.5\tPASS\tAF=0.1\tGT\t0|1\x00".toList
    (by decide) (by decide) (by decide) (by decide) (by decide) (by decide)
    (by decide) (by decide)).2.2.2 okEnv

theorem C14_counterexample :
    ¬ ∀ (f0 f1 f3 f4 f6 f7 a2 a5 arest b2 b5 brest la lb : List Char),
      la = f0 ++ '\t' :: (f1 ++ '\t' :: (a2 ++ '\t' :: (f3 ++ '\t' ::
        (f4 ++ '\t' :: (a5 ++ '\t' :: (f6 ++ '\t' :: (f7 ++ arest))))))) →
      lb = f0 ++ '\t' :: (f1 ++ '\t' :: (b2 ++ '\t' :: (f3 ++ '\t' ::
        (f4 ++ '\t' :: (b5 ++ '\t' :: (f6 ++ '\t' :: (f7 ++ brest))))))) →
      (∀ f ∈ [f0, f1, f3, f4, f6, f7, a2, a5, b2, b5], '\t' ∉ f) →
      (arest = [] ∨ arest.head? = some '\t') → (brest = [] ∨ brest.head? = some '\t') →
      la.head? ≠ some '#' → lb.head? ≠ some '#' →
      runOut okEnv [la] = runOut okEnv [lb] := by
  intro h
  have h1 := h "1".toList "5".toList "A".toList "C".toList "PASS".toList "AF=0.1".toList
    "rs\x001".toList "9".toList [] "rs1".toList "9".toList []
    "1\t5\trs\x001\tA\tC\t9\tPASS\tAF=0.1".toList "1\t5\trs1\tA\tC\t9\tPASS\tAF=0.1".toList
    (by decide) (by decide) (by decide) (by decide) (by decide) (by decide) (by decide)
  revert h1
  decide

/-- C15: the match of `"AF="` is not tied to the start of an entry: for `x`
without `;` the field `"MAF=" ++ x ++ ";AF=" ++ y` gives the value `x` of the
MAF entry, and the rebuilt field is `"AF=" ++ x`. -/
theorem C15_maf_matches (x y : List Char) (hx : ';' ∉ x) :
    afValue ("MAF=".toList ++ x ++ ";AF=".toList ++ y) = some x ∧
    newInfo ("MAF=".toList ++ x ++ ";AF=".toList ++ y) = some ("AF=".toList ++ x) := by
  have h := afValue_decomp ['M'] x (";AF=".toList ++ y) (by decide) hx (Or.inr rfl)
  have e : "MAF=".toList ++ x ++ ";AF=".toList ++ y
      = ['M'] ++ afTag ++ x ++ (";AF=".toList ++ y) := by
    have e1 : "MAF=".toList = ['M'] ++ afTag := rfl
    rw [e1]
    simp
  rw [e]
  exact ⟨h, by rw [newInfo, h]; rfl⟩

theorem C15_witness :
    afValue ("MAF=".toList ++ "0.01".toList ++ ";AF=".toList ++ "0.5".toList)
      = some "0.01".toList :=
  (C15_maf_matches "0.01".toList "0.5".toList (by decide)).1

/-- C16: the record of a line without newline byte has exactly 7 tabs and
exactly one newline, which is its last byte; split on the tabs, the text
before the newline gives 8 fields of which the 3rd and the 6th are `.` and the
last starts with `AF=` and has no `;`. -/
theorem C16_record_layout (line bytes : List Char) (hnl : '\n' ∉ line)
    (hrec : dataLine (cstr line) = .record bytes) :
    bytes.count '\t' = 7 ∧ bytes.count '\n' = 1 ∧ bytes.getLast? = some '\n' ∧
    ∃ g0 g1 g3 g4 g6 g7,
      bytes.dropLast.splitOn '\t' = [g0, g1, ".".toList, g3, g4, ".".toList, g6, g7] ∧
      "AF=".toList <+: g7 ∧ ';' ∉ g7 := by
  obtain ⟨f0, f1, f2, f3, f4, f5, f6, f7, rest, v, e, htab, hrest, hv, hb⟩ :=
    dataLine_record_inv hrec
  obtain ⟨pre, post, e7, _, hsemi, _⟩ := afValue_some_inv hv
  have hnl2 : '\n' ∉ cstr line := fun hc => hnl ((cstr_initial line).subset hc)
  have hv7 : v ⊆ f7 := afValue_sub hv
  have hfs : ∀ g ∈ [f0, f1, ['.'], f3, f4, ['.'], f6], '\t' ∉ g := by
    intro g hg
    simp only [List.mem_cons, List.mem_singleton, List.not_mem_nil, or_false] at hg
    rcases hg with rfl | rfl | rfl | rfl | rfl | rfl | rfl
    · exact htab _ (by simp)
    · exact htab _ (by simp)
    · decide
    · exact htab _ (by simp)
    · exact htab _ (by simp)
    · decide
    · exact htab _ (by simp)
  have hlast : '\t' ∉ afTag ++ v := by
    intro hc
    rcases List.mem_append.mp hc with hc | hc
    · revert hc; decide
    · exact htab f7 (by simp) (hv7 hc)
  have hnlf : ∀ g ∈ [f0, f1, ['.'], f3, f4, ['.'], f6], '\n' ∉ g := by
    intro g hg hc
    simp only [List.mem_cons, List.mem_singleton, List.not_mem_nil, or_false] at hg
    apply hnl2
    rw [e]
    rcases hg with rfl | rfl | rfl | rfl | rfl | rfl | rfl
    · simp [hc]
    · simp [hc]
    · exact absurd hc (by decide)
    · simp [hc]
    · simp [hc]
    · exact absurd hc (by decide)
    · simp [hc]
  have hnll : '\n' ∉ afTag ++ v := by
    intro hc
    rcases List.mem_append.mp hc with hc | hc
    · revert hc; decide
    · apply hnl2
      rw [e]
      have := hv7 hc
      simp [this]
  have hj := expectedRecord_eq_joinTabs f0 f1 f3 f4 f6 v
  have hd : bytes.dropLast = joinTabs [f0, f1, ['.'], f3, f4, ['.'], f6] (afTag ++ v) := by
    rw [hb, hj, List.dropLast_concat]
  refine ⟨?_, ?_, ?_, f0, f1, f3, f4, f6, afTag ++ v, ?_, ⟨v, rfl⟩, ?_⟩
  · rw [hb, hj, List.count_append, count_joinTabs _ _ hfs hlast]
    rfl
  · rw [hb, hj, List.count_append,
      List.count_eq_zero_of_not_mem (not_mem_joinTabs '\n' (by decide) _ _ hnlf hnll)]
    rfl
  · rw [hb, hj]
    simp
  · rw [hd]
    exact splitOn_joinTabs _ _ hfs hlast
  · intro hc
    rcases List.mem_append.mp hc with hc | hc
    · revert hc; decide
    · exact hsemi hc

theorem C16_witness :
    "chr1\t100\t.\tA\tG\t.\tPASS\tAF=0.2\n".toList.count '\t' = 7 ∧
    "chr1\t100\t.\tA\tG\t.\tPASS\tAF=0.2\n".toList.count '\n' = 1 ∧
    "chr1\t100\t.\tA\tG\t.\tPASS\tAF=0.2\n".toList.getLast? = some '\n' :=
  have h := C16_record_layout "chr1\t100\trsX\tA\tG\t30\tPASS\tAF=0.2;DP=5".toList
    "chr1\t100\t.\tA\tG\t.\tPASS\tAF=0.2\n".toList (by decide) (by decide)
  ⟨h.1, h.2.1, h.2.2.1⟩

/-- C17: an iteration that skips a data line, because it has fewer than 7
tabs or because its 8th column has no `"AF="`, changes nothing but the call
counters: nothing is printed to `stderr` or `stdout` and nothing is written.
Every diagnostic of a run stands for a failure: the usage diagnostic for a
wrong argument count, the two open diagnostics for a file that does not open,
the allocation diagnostic for a failed `strdup`, the two write diagnostics for
a failed `bgzf_write`; in a run in which both files open and nothing fails
`stderr` stays empty and `stdout` holds the summary only, whatever the input. -/
theorem C17_skips_are_silent :
    (∀ (env : Env) (w : World) (line : List Char), line ≠ [] → line.head? ≠ some '#' →
      env.dupOk w.ndup = true → (∀ bytes, dataLine (cstr line) ≠ .record bytes) →
      step env w (.line line) = .next { w with nread := w.nread + 1, ndup := w.ndup + 1 }) ∧
    (∀ line : List Char, line.count '\t' < 7 → ∀ bytes, dataLine (cstr line) ≠ .record bytes) ∧
    (∀ f0 f1 f2 f3 f4 f5 f6 f7 rest : List Char,
      (∀ f ∈ [f0, f1, f2, f3, f4, f5, f6, f7], '\t' ∉ f) →
      (rest = [] ∨ rest.head? = some '\t') → ¬ afTag <:+: f7 →
      ∀ bytes, dataLine (cstr (f0 ++ '\t' :: (f1 ++ '\t' :: (f2 ++ '\t' :: (f3 ++ '\t' ::
        (f4 ++ '\t' :: (f5 ++ '\t' :: (f6 ++ '\t' :: (f7 ++ rest))))))))) ≠ .record bytes) ∧
    (∀ (env : Env) (rs : List ReadResult) (d : Diag), d ∈ (main env rs).2.err →
      (d = Diag.usage (env.argv.getD 0 []) ∧ env.argv.length ≠ 3) ∨
      (d = Diag.openInput (env.argv.getD 1 []) ∧ env.inOpens = false) ∨
      (d = Diag.openOutput (env.argv.getD 2 []) ∧ env.outOpens = false) ∨
      (d = Diag.allocLine ∧ ∃ k, env.dupOk k = false) ∨
      ((d = Diag.writeHeader ∨ d = Diag.writeData) ∧ ∃ k, env.writeOk k = false)) ∧
    (∀ (env : Env) (rs : List ReadResult), env.Opens → env.NoFailure →
      (main env rs).2.err = [] ∧
      (main env rs).2.stdout = [summary (env.argv.getD 1 []) (env.argv.getD 2 [])]) := by
  refine ⟨?_, ?_, ?_, main_err, fun env rs hop hok => main_silent hop hok rs⟩
  · intro env w line hne hdata hd hno
    rw [step_line hne]
    cases hr : dataLine (cstr line) with
    | malformed => simp [body, hdata, strdup, hd, hr]
    | noAF => simp [body, hdata, strdup, hd, hr]
    | record bytes => exact absurd hr (hno bytes)
  · intro line h bytes hb
    rw [dataLine_few_tabs h] at hb
    cases hb
  · intro f0 f1 f2 f3 f4 f5 f6 f7 rest htab hrest hno bytes hb
    rcases dataLine_cstr_noAF f0 f1 f2 f3 f4 f5 f6 f7 rest htab hrest hno with h | h <;>
      rw [h] at hb <;> cases hb

theorem C17_witness :
    step okEnv World.start (.line "1\t5\tx\tA\tC".toList)
      = .next { World.start with nread := World.start.nread + 1,
                                 ndup := World.start.ndup + 1 } :=
  C17_skips_are_silent.1 okEnv World.start "1\t5\tx\tA\tC".toList (by decide) (by decide) rfl
    (C17_skips_are_silent.2.1 "1\t5\tx\tA\tC".toList (by decide))

/-- C18: in a run in which nothing fails on lines without newline byte, the
lines of the output file, given to the program again, give the same output
file; every line of the output file is not empty and gives itself followed by
a newline; and the record of a data line, without its newline, is again a data
line whose record is the same record. -/
theorem C18_idempotent (env : Env) (hop : env.Opens) (hok : env.NoFailure)
    (xs : List (List Char)) (hnl : ∀ l ∈ xs, '\n' ∉ l) :
    runOut env (linesOf (runOut env xs)) = runOut env xs ∧
    (∀ l ∈ linesOf (runOut env xs), l ≠ [] ∧ runOut env [l] = l ++ "\n".toList) ∧
    (∀ line bytes : List Char, line.head? ≠ some '#' →
      dataLine (cstr line) = .record bytes →
      bytes.dropLast ≠ [] ∧ bytes.dropLast.head? ≠ some '#' ∧
      dataLine (cstr bytes.dropLast) = .record bytes ∧
      runOut env [bytes.dropLast] = bytes) := by
  have hys : ∀ l ∈ xs.takeWhile (fun l => !l.isEmpty), '\n' ∉ l :=
    fun l hl => hnl l ((List.takeWhile_sublist _).subset hl)
  obtain ⟨i1, i2, i3⟩ := linesOf_output _ hys
  have hx := runOut_eq_takeWhile hop hok xs
  have hz : ∀ z ∈ (xs.takeWhile (fun l => !l.isEmpty)).filterMap outLine, z ≠ [] :=
    fun z hz => (i3 z hz).1
  refine ⟨?_, ?_, ?_⟩
  · rw [hx, i1, runOut_eq hop hok _ hz, i2]
  · intro l hl
    rw [hx, i1] at hl
    refine ⟨(i3 l hl).1, ?_⟩
    rw [runOut_eq hop hok [l] (by simpa using (i3 l hl).1)]
    simpa using (i3 l hl).2
  · intro line bytes hdata hrec
    obtain ⟨a1, a2, _, a4, _⟩ := record_fixed line bytes hdata hrec
    refine ⟨a1, a2, a4, ?_⟩
    rw [runOut_eq hop hok [bytes.dropLast] (by simpa using a1)]
    simp [lineOut, a2, a4]

theorem C18_witness :
    (runOut okEnv (linesOf (runOut okEnv ["#CHROM\tPOS".toList,
        "1\t5\tx\tA\tC\t9\tPASS\tNS=2;AF=0.1".toList, "1\t7\ty\tG\tT\t9\tPASS\tDP=3".toList]))
      = runOut okEnv ["#CHROM\tPOS".toList, "1\t5\tx\tA\tC\t9\tPASS\tNS=2;AF=0.1".toList,
        "1\t7\ty\tG\tT\t9\tPASS\tDP=3".toList]) ∧
    linesOf (runOut okEnv ["#CHROM\tPOS".toList,
        "1\t5\tx\tA\tC\t9\tPASS\tNS=2;AF=0.1".toList, "1\t7\ty\tG\tT\t9\tPASS\tDP=3".toList])
      = ["#CHROM\tPOS".toList, "1\t5\t.\tA\tC\t.\tPASS\tAF=0.1".toList] :=
  ⟨(C18_idempotent okEnv okEnv_opens okEnv_noFailure ["#CHROM\tPOS".toList,
      "1\t5\tx\tA\tC\t9\tPASS\tNS=2;AF=0.1".toList, "1\t7\ty\tG\tT\t9\tPASS\tDP=3".toList]
      (by decide)).1, by decide⟩

/-- C19 (amended): a data line with the columns `f0 .. f7` (and possibly
more), no NUL byte in `f0 .. f6` and `"AF="` in `f7` before any NUL byte
always gives a record: when its `strdup` and its write succeed the iteration
makes exactly one write, of the record
`f0 \t f1 \t . \t f3 \t f4 \t . \t f6 \t AF=v \n`, and goes on; the value `v`
is not checked, and it is empty, so that the last field is `AF=`, when the
first `"AF="` is followed by `;` or by the end of the field (its first NUL
byte when it has one). -/
theorem C19_af_line_gives_record (f0 f1 f2 f3 f4 f5 f6 f7 rest line : List Char)
    (hline : line = f0 ++ '\t' :: (f1 ++ '\t' :: (f2 ++ '\t' :: (f3 ++ '\t' ::
      (f4 ++ '\t' :: (f5 ++ '\t' :: (f6 ++ '\t' :: (f7 ++ rest))))))))
    (htab : ∀ f ∈ [f0, f1, f2, f3, f4, f5, f6, f7], '\t' ∉ f)
    (hrest : rest = [] ∨ rest.head? = some '\t')
    (hdata : line.head? ≠ some '#')
    (hnul : ∀ f ∈ [f0, f1, f2, f3, f4, f5, f6], '\x00' ∉ f)
    (haf : afTag <:+: cstr f7) :
    ∃ v, afValue (cstr f7) = some v ∧ ('\x00' ∉ f7 → afValue f7 = some v) ∧
      (∀ (env : Env) (w : World), env.dupOk w.ndup = true → env.writeOk w.nwrite = true →
        step env w (.line line) = .next
          { w with
              out := w.out ++ (f0 ++ "\t".toList ++ f1 ++ "\t.\t".toList ++ f3 ++ "\t".toList
                ++ f4 ++ "\t.\t".toList ++ f6 ++ "\tAF=".toList ++ v ++ "\n".toList),
              nread := w.nread + 1, nwrite := w.nwrite + 1, ndup := w.ndup + 1 }) ∧
      (∀ pre post : List Char, cstr f7 = pre ++ afTag ++ post →
        ¬ afTag <:+: pre ++ ['A', 'F'] → (post = [] ∨ post.head? = some ';') → v = []) := by
  obtain ⟨v, hv⟩ := afValue_isSome haf
  have hne : line ≠ [] := by
    intro e
    have := congrArg List.length (hline.symm.trans e)
    simp at this
  have hrec : dataLine (cstr line) = .record (expectedRecord f0 f1 f3 f4 f6 v) := by
    rw [hline, dataLine_cstr_eight f0 f1 f2 f3 f4 f5 f6 f7 rest htab hrest hnul]
    simp [resultOf, hv]
  refine ⟨v, hv, ?_, ?_, ?_⟩
  · intro h7
    rw [← cstr_eq_self h7]
    exact hv
  · intro env w hd hw
    exact record_step env w line _ hne hdata hrec hd hw
  · intro pre post e hfirst hpost
    have h := afValue_decomp pre [] post hfirst (by simp) hpost
    rw [List.append_nil, ← e, hv] at h
    exact (Option.some.inj h)

theorem C19_witness :
    (step okEnv World.start (.line "1\t5\tx\tA\tC\t9\tPASS\tDP=3;AF=;NS=2".toList)).world.out
      = "1\t5\t.\tA\tC\t.\tPASS\tAF=\n".toList := by
  obtain ⟨v, _, _, hstep, hempty⟩ := C19_af_line_gives_record "1".toList "5".toList "x".toList
    "A".toList "C".toList "9".toList "PASS".toList "DP=3;AF=;NS=2".toList []
    "1\t5\tx\tA\tC\t9\tPASS\tDP=3;AF=;NS=2".toList
    (by decide) (by decide) (by decide) (by decide) (by decide) (by decide)
  have hv : v = [] := hempty "DP=3;".toList ";NS=2".toList (by decide) (by decide) (Or.inr rfl)
  subst hv
  rw [hstep okEnv World.start rfl rfl]
  rfl

theorem C19_counterexample :
    ¬ ∀ (f0 f1 f2 f3 f4 f5 f6 f7 rest line : List Char),
      line = f0 ++ '\t' :: (f1 ++ '\t' :: (f2 ++ '\t' :: (f3 ++ '\t' ::
        (f4 ++ '\t' :: (f5 ++ '\t' :: (f6 ++ '\t' :: (f7 ++ rest))))))) →
      (∀ f ∈ [f0, f1, f2, f3, f4, f5, f6, f7], '\t' ∉ f) →
      (rest = [] ∨ rest.head? = some '\t') →
      line ≠ [] → line.head? ≠ some '#' → afTag <:+: f7 →
      ∃ bytes, dataLine (cstr line) = .record bytes ∧
        (step okEnv World.start (.line line)).world.nwrite = World.start.nwrite + 1 := by
  intro h
  obtain ⟨bytes, hb, _⟩ := h "1".toList "5".toList "x".toList "A".toList "C".toList "9".toList
    "PASS".toList "DP=1\x00;AF=0.1".toList [] "1\t5\tx\tA\tC\t9\tPASS\tDP=1\x00;AF=0.1".toList
    (by decide) (by decide) (by decide) (by decide) (by decide) (by decide)
  have e : dataLine (cstr "1\t5\tx\tA\tC\t9\tPASS\tDP=1\x00;AF=0.1".toList) = .noAF := by decide
  rw [e] at hb
  cases hb

end VCFUtils
